import Mathlib

/-!
# Verification of the Privacy Loss Distribution accounting core

This file gives a shallow embedding, over exact real (and rational)
arithmetic, of `accounting/python/privacy_loss_distribution.py` and proves
or refutes the specification claims about it.

Modelling conventions:
* Python floats are modelled as real numbers (exact arithmetic); purely
  field-arithmetic functions (the Laplace mechanism closed forms) are also
  modelled over the rationals so that they stay decidable.
* A Python dictionary with integer keys and float values is modelled as a
  pair of a `Finset ℤ` (the key set) and a total function `ℤ → ℝ` which is
  the lookup-with-default-0 (`dict.get(k, 0)`) view of the dictionary; all
  constructions below keep the convention that the function is `0` outside
  the key set.
* `scipy.stats` cumulative distribution functions are external collaborators
  of the core; they enter the embedding as function parameters (with their
  standard properties as hypotheses where a proof needs them).
* `signal.fftconvolve` / `numpy.fft` compute exact linear convolutions up to
  floating-point round-off; they are embedded as exact linear convolution of
  lists, mirroring the dense-array pipeline of the source.
-/

namespace DPAccounting

open scoped BigOperators

/-- The `PrivacyLossDistribution` object: `keys`/`mass` model the
`rounded_probability_mass_function` dictionary (with `mass k = 0` for
`k ∉ keys`, matching `dict.get(k, 0)`). -/
structure PLD where
  keys : Finset ℤ
  mass : ℤ → ℝ
  value_discretization_interval : ℝ
  infinity_mass : ℝ

/-- `round_fn = math.ceil if pessimistic_estimate else math.floor`. -/
noncomputable def round_fn (pess : Bool) (x : ℝ) : ℤ :=
  if pess then ⌈x⌉ else ⌊x⌋

/-- `PrivacyLossDistribution.get_delta_for_epsilon` (lines 401-429): the
epsilon-hockey-stick divergence read off the stored histogram. -/
noncomputable def get_delta_for_epsilon (pld : PLD) (ε : ℝ) : ℝ :=
  pld.infinity_mass +
    ∑ i ∈ pld.keys,
      if ε < (i : ℝ) * pld.value_discretization_interval ∧ 0 < pld.mass i then
        (1 - Real.exp (ε - (i : ℝ) * pld.value_discretization_interval)) * pld.mass i
      else 0

/-- The final two lines of `get_epsilon_for_delta`: return `0` when
`mass_upper <= mass_lower + delta`, else `log((mass_upper - delta)/mass_lower)`. -/
noncomputable def eps_final (delta mass_upper mass_lower : ℝ) : ℝ :=
  if mass_upper ≤ mass_lower + delta then 0
  else Real.log ((mass_upper - delta) / mass_lower)

/-- The main loop of `get_epsilon_for_delta` (lines 457-477), iterating over
the histogram keys in descending order, with the early-termination break and
the `mass_lower == 0` special case embedded faithfully. -/
noncomputable def eps_loop (delta I : ℝ) (mass : ℤ → ℝ) :
    List ℤ → ℝ → ℝ → Option ℝ
  | [], mass_upper, mass_lower => some (eps_final delta mass_upper mass_lower)
  | i :: rest, mass_upper, mass_lower =>
    if delta < mass_upper ∧ 0 < mass_lower ∧
        (i : ℝ) * I ≤ Real.log ((mass_upper - delta) / mass_lower) then
      some (eps_final delta mass_upper mass_lower)
    else
      if delta ≤ mass_upper + mass i ∧ mass_lower + Real.exp (-((i : ℝ) * I)) * mass i = 0 then
        some (max 0 ((i : ℝ) * I))
      else
        eps_loop delta I mass rest (mass_upper + mass i)
          (mass_lower + Real.exp (-((i : ℝ) * I)) * mass i)

/-- `sorted(self.rounded_probability_mass_function.keys(), reverse=True)`. -/
def sorted_keys_desc (pld : PLD) : List ℤ :=
  (pld.keys.sort (· ≤ ·)).reverse

/-- `PrivacyLossDistribution.get_epsilon_for_delta` (lines 431-477);
`none` models the `math.inf` return. -/
noncomputable def get_epsilon_for_delta (pld : PLD) (delta : ℝ) : Option ℝ :=
  if delta < pld.infinity_mass then none
  else
    eps_loop delta pld.value_discretization_interval pld.mass
      (sorted_keys_desc pld) pld.infinity_mass 0

/-- `PrivacyLossDistribution.from_privacy_parameters` (lines 365-399): the
two-point pessimistic PLD, with the Python dict-literal semantics that a later
duplicate key overwrites an earlier one. -/
noncomputable def from_privacy_parameters (ε δ I : ℝ) : PLD where
  keys := {⌈ε / I⌉, ⌈-ε / I⌉}
  mass := fun k =>
    if k = ⌈-ε / I⌉ then (1 - δ) / (1 + Real.exp ε)
    else if k = ⌈ε / I⌉ then (1 - δ) / (1 + Real.exp (-ε))
    else 0
  value_discretization_interval := I
  infinity_mass := δ

/-- The error taxonomy of the module: `invalid_parameter` models the
`ValueError`s raised by the input-validation checks, `incompatible_interval`
the configuration-mismatch error of `compose`, and `empty_histogram` the
`ValueError` raised by `min({})` inside `dictionary_to_list`. -/
inductive PLDError
  | invalid_parameter
  | incompatible_interval
  | empty_histogram
deriving DecidableEq

/-- `PrivacyLossDistribution.from_randomized_response` (lines 277-363).
The `defaultdict` receives three `+=` updates, so all three touched keys are
present afterwards, whatever their accumulated mass. -/
noncomputable def from_randomized_response (p : ℝ) (num_buckets : ℤ)
    (pess : Bool) (I : ℝ) : Except PLDError PLD :=
  if p ≤ 0 ∨ 1 ≤ p then .error .invalid_parameter
  else if num_buckets ≤ 1 then .error .invalid_parameter
  else
    let peq : ℝ := (1 - p) + p / (num_buckets : ℝ)
    let pne : ℝ := p / (num_buckets : ℝ)
    let k1 := round_fn pess (Real.log (peq / pne) / I)
    let k2 := round_fn pess (Real.log (pne / peq) / I)
    .ok
      { keys := {k1, k2, 0}
        mass := fun k =>
          (if k = k1 then peq else 0) + (if k = k2 then pne else 0) +
            (if k = 0 then pne * ((num_buckets : ℝ) - 2) else 0)
        value_discretization_interval := I
        infinity_mass := 0 }

/-- A Python dictionary mapping outcomes to log-probabilities, where the
stored float may be `-math.inf` (modelled by `none`). -/
structure LogPmf (α : Type) where
  support : Finset α
  logp : α → Option ℝ

/-- `d.get(o, -math.inf)`. -/
def LogPmf.get {α : Type} [DecidableEq α] (d : LogPmf α) (o : α) : Option ℝ :=
  if o ∈ d.support then d.logp o else none

/-- `math.exp` extended by `exp(-inf) = 0`. -/
noncomputable def exp_or_zero : Option ℝ → ℝ
  | none => 0
  | some r => Real.exp r

/-- The comparison `x > bound` on floats that may be `-math.inf`. -/
def log_gt : Option ℝ → Option ℝ → Prop
  | none, _ => False
  | some _, none => True
  | some u, some c => c < u

noncomputable instance log_gt_dec : ∀ x b, Decidable (log_gt x b)
  | none, _ => isFalse (fun h => h)
  | some _, none => isTrue trivial
  | some u, some c => inferInstanceAs (Decidable (c < u))

/-- First loop of `from_two_probability_mass_functions` (lines 230-237):
outcomes of the upper distribution absent from (or at `-inf` in) the lower
distribution contribute their upper mass to `infinity_mass`. -/
noncomputable def fw_infinity_mass {α : Type} [DecidableEq α]
    (lower upper : LogPmf α) : ℝ :=
  ∑ o ∈ upper.support, if lower.get o = none then exp_or_zero (upper.get o) else 0

/-- The outcomes reaching the `elif` branch of the second loop (lines
247-256): present in the lower distribution with a finite log-probability,
and with upper log-probability above the truncation bound. -/
noncomputable def fw_body {α : Type} [DecidableEq α] (lower upper : LogPmf α)
    (bound : Option ℝ) : Finset α :=
  lower.support.filter fun o => ¬ lower.logp o = none ∧ log_gt (upper.get o) bound

/-- `privacy_loss_value = log_upper[outcome] - log_lower[outcome]`
(both finite on `fw_body`). -/
noncomputable def fw_loss {α : Type} [DecidableEq α]
    (lower upper : LogPmf α) (o : α) : ℝ :=
  (upper.get o).getD 0 - (lower.get o).getD 0

/-- The `else` branch of the second loop (lines 257-263): under a pessimistic
estimate, below-threshold outcomes add `exp(log_upper.get(outcome, -inf))` to
`infinity_mass`. -/
noncomputable def fw_truncated_mass {α : Type} [DecidableEq α]
    (lower upper : LogPmf α) (pess : Bool) (bound : Option ℝ) : ℝ :=
  if pess then
    ∑ o ∈ lower.support.filter
        (fun o => ¬ lower.logp o = none ∧ ¬ log_gt (upper.get o) bound),
      exp_or_zero (upper.get o)
  else 0

/-- Key set of the intermediate `probability_mass_function` dictionary. -/
noncomputable def fw_loss_values {α : Type} [DecidableEq α]
    (lower upper : LogPmf α) (bound : Option ℝ) : Finset ℝ :=
  (fw_body lower upper bound).image (fw_loss lower upper)

/-- Value of the intermediate `probability_mass_function` dictionary at a
privacy-loss value `v` (lines 251-256): the upper masses of all body outcomes
whose privacy loss is exactly `v`. -/
noncomputable def fw_raw_mass {α : Type} [DecidableEq α]
    (lower upper : LogPmf α) (bound : Option ℝ) (v : ℝ) : ℝ :=
  ∑ o ∈ (fw_body lower upper bound).filter (fun o => fw_loss lower upper o = v),
    exp_or_zero (upper.get o)

/-- `PrivacyLossDistribution.from_two_probability_mass_functions`
(lines 193-275): discretize the raw privacy-loss pmf at granularity `I`
(rounding up when pessimistic, down when optimistic) and accumulate the
infinity mass.  `bound` is `log_mass_truncation_bound` (`none` = `-inf`). -/
noncomputable def from_two_probability_mass_functions {α : Type} [DecidableEq α]
    (lower upper : LogPmf α) (pess : Bool) (I : ℝ) (bound : Option ℝ) : PLD where
  keys := (fw_loss_values lower upper bound).image fun v => round_fn pess (v / I)
  mass := fun k =>
    ∑ v ∈ (fw_loss_values lower upper bound).filter
        (fun v => round_fn pess (v / I) = k),
      fw_raw_mass lower upper bound v
  value_discretization_interval := I
  infinity_mass := fw_infinity_mass lower upper + fw_truncated_mass lower upper pess bound

/-- `input_dictionary.get(i, 0)`. -/
noncomputable def dict_get (keys : Finset ℤ) (mass : ℤ → ℝ) (k : ℤ) : ℝ :=
  if k ∈ keys then mass k else 0

/-- `dictionary_to_list` (lines 34-52): offset is the minimum key; the list
covers the key range densely with `dict.get(i, 0)` entries.  `none` models the
`ValueError` of `min({})` on an empty dictionary. -/
noncomputable def dictionary_to_list (keys : Finset ℤ) (mass : ℤ → ℝ) :
    Option (ℤ × List ℝ) :=
  if h : keys.Nonempty then
    some (keys.min' h,
      (List.range (keys.max' h - keys.min' h + 1).toNat).map fun j : ℕ =>
        dict_get keys mass (keys.min' h + (j : ℤ)))
  else none

/-- Exact linear convolution of two dense lists — the mathematical value
computed by `signal.fftconvolve(list1, list2)`. -/
noncomputable def list_convolve (u v : List ℝ) : List ℝ :=
  (List.range (u.length + v.length - 1)).map fun n =>
    ∑ i ∈ Finset.range (n + 1), u.getD i 0 * v.getD (n - i) 0

/-- `list_to_dictionary` (lines 55-72): entry `j` of the list is stored at key
`offset + j` exactly when it is positive. -/
noncomputable def list_to_dictionary (l : List ℝ) (offset : ℤ) :
    Finset ℤ × (ℤ → ℝ) :=
  let ks := ((Finset.range l.length).filter fun j => 0 < l.getD j 0).image
    fun j : ℕ => offset + (j : ℤ)
  (ks, fun k => if k ∈ ks then l.getD (k - offset).toNat 0 else 0)

/-- `convolve_dictionary` (lines 75-98). -/
noncomputable def convolve_dictionary (keys1 : Finset ℤ) (mass1 : ℤ → ℝ)
    (keys2 : Finset ℤ) (mass2 : ℤ → ℝ) : Option (Finset ℤ × (ℤ → ℝ)) :=
  match dictionary_to_list keys1 mass1, dictionary_to_list keys2 mass2 with
  | some (o1, l1), some (o2, l2) => some (list_to_dictionary (list_convolve l1 l2) (o1 + o2))
  | _, _ => none

/-- `PrivacyLossDistribution.compose` (lines 479-514). -/
noncomputable def compose (a b : PLD) : Except PLDError PLD :=
  if a.value_discretization_interval ≠ b.value_discretization_interval then
    .error .incompatible_interval
  else
    match convolve_dictionary a.keys a.mass b.keys b.mass with
    | none => .error .empty_histogram
    | some (ks, m) =>
      .ok
        { keys := ks
          mass := m
          value_discretization_interval := a.value_discretization_interval
          infinity_mass := a.infinity_mass + b.infinity_mass -
            a.infinity_mass * b.infinity_mass }

/-- `k`-fold linear convolution of a list with itself, `iter_convolve l k`
with `k ≥ 1`; `[1]` (the convolution identity) is the nominal value at `0`. -/
noncomputable def iter_convolve (l : List ℝ) : ℕ → List ℝ
  | 0 => [1]
  | n + 1 => list_convolve (iter_convolve l n) l

/-- `self_convolve_dictionary` (lines 101-128).  The FFT of size
`num_times * len(input_list)` raised to the `num_times`-th power and inverted
equals, in exact arithmetic, the `num_times`-fold linear convolution padded
with zeros to that size. -/
noncomputable def self_convolve_dictionary (keys : Finset ℤ) (mass : ℤ → ℝ)
    (num_times : ℕ) : Option (Finset ℤ × (ℤ → ℝ)) :=
  match dictionary_to_list keys mass with
  | none => none
  | some (offset, l) =>
    let conv := iter_convolve l num_times
    some (list_to_dictionary
      (conv ++ List.replicate (num_times * l.length - conv.length) 0)
      (offset * (num_times : ℤ)))

/-- `PrivacyLossDistribution.self_compose` (lines 516-533). -/
noncomputable def self_compose (pld : PLD) (num_times : ℕ) : Option PLD :=
  match self_convolve_dictionary pld.keys pld.mass num_times with
  | none => none
  | some (ks, m) =>
    some
      { keys := ks
        mass := m
        value_discretization_interval := pld.value_discretization_interval
        infinity_mass := 1 - (1 - pld.infinity_mass) ^ num_times }

/-- `DiscreteLaplacePrivacyLossDistribution.privacy_loss` (lines 1265-1278):
`(|x - sensitivity| - |x|) * parameter`, defined on the integers. -/
noncomputable def discrete_laplace_privacy_loss (parameter : ℝ)
    (sensitivity x : ℤ) : ℝ :=
  ((|x - sensitivity| : ℤ) - (|x| : ℤ)) * parameter

/-- The PLD built by `DiscreteLaplacePrivacyLossDistribution.__init__`
running the shared `AdditiveNoisePrivacyLossDistribution.__init__`
(lines 589-657) with `discrete_noise=True`:
* the tail (lines 1245-1263) contributes `cdf(0)` at the rounded key of
  `sensitivity * parameter / I` and `cdf(-sensitivity)` at the rounded key of
  `-sensitivity * parameter / I` (both keys finite, so `infinity_mass = 0`);
* the discrete loop (lines 629-634) walks the integers
  `x ∈ [ceil(1), floor(sensitivity - 1)]` and adds `cdf(x) - cdf(x-1)` at key
  `round_fn(privacy_loss(x))` — as written in the source, without dividing
  the privacy loss by `value_discretization_interval`.
`cdf` is the `stats.dlaplace(parameter).cdf` collaborator. -/
noncomputable def discrete_laplace_pld (parameter : ℝ) (sensitivity : ℤ)
    (cdf : ℤ → ℝ) (pess : Bool) (I : ℝ) : PLD where
  keys :=
    ({round_fn pess ((sensitivity : ℝ) * parameter / I),
      round_fn pess (-(sensitivity : ℝ) * parameter / I)} : Finset ℤ) ∪
    (Finset.Icc 1 (sensitivity - 1)).image
      (fun x => round_fn pess (discrete_laplace_privacy_loss parameter sensitivity x))
  mass := fun k =>
    (if k = round_fn pess ((sensitivity : ℝ) * parameter / I) then cdf 0 else 0) +
    (if k = round_fn pess (-(sensitivity : ℝ) * parameter / I) then cdf (-sensitivity) else 0) +
    ∑ x ∈ (Finset.Icc 1 (sensitivity - 1)).filter
        (fun x => round_fn pess (discrete_laplace_privacy_loss parameter sensitivity x) = k),
      (cdf x - cdf (x - 1))
  value_discretization_interval := I
  infinity_mass := 0

/-- The while-loop of the continuous-noise branch of
`AdditiveNoisePrivacyLossDistribution.__init__` (lines 636-653), walking
outward from `lower_x` in granularity steps.  `inv` and `cdf` are the
mechanism's `inverse_privacy_loss` and `noise_cdf` collaborators.  The Python
loop is unbounded; it is modelled with an explicit iteration budget `fuel`
(state passed unchanged when the budget runs out), and the theorems below
quantify over every budget, so a terminating run of the Python loop coincides
with the model at any sufficiently large budget.  One iteration: take
`upper_x = min(upper_x_truncation, inverse_privacy_loss(I * rounded_down_value))`,
add `noise_cdf(upper_x) - noise_cdf(lower_x)` to bucket
`round_fn(rounded_down_value + 0.5)`, then advance `lower_x ← upper_x` and
decrement `rounded_down_value`. -/
noncomputable def continuous_construction_loop (inv cdf : ℝ → ℝ) (ut : ℝ)
    (pess : Bool) (I : ℝ) :
    ℕ → ℝ → ℤ → Finset ℤ → (ℤ → ℝ) → Finset ℤ × (ℤ → ℝ)
  | 0, _, _, ks, m => (ks, m)
  | fuel + 1, lower_x, rdv, ks, m =>
    if lower_x < ut then
      continuous_construction_loop inv cdf ut pess I fuel
        (min ut (inv (I * (rdv : ℝ))))
        (rdv - 1)
        (insert (round_fn pess ((rdv : ℝ) + 1/2)) ks)
        (fun k => if k = round_fn pess ((rdv : ℝ) + 1/2) then
            m k + (cdf (min ut (inv (I * (rdv : ℝ)))) - cdf lower_x) else m k)
    else (ks, m)

/-- The PLD built by the shared additive-noise constructor (lines 589-657)
for a continuous-noise mechanism (`discrete_noise=False`), generic over the
mechanism's closed-form collaborators (§4.3): seed the histogram with the
rounded finite tail entries (`tail_pmf`, a list of privacy-loss/mass pairs;
`tail_infinity` is the mass of the tail's `math.inf` key, which becomes
`infinity_mass`), then run the granularity walk starting at
`lower_x = lower_x_truncation` and
`rounded_down_value = floor(privacy_loss(lower_x) / I)`. -/
noncomputable def additive_continuous_pld
    (privacy_loss inverse_privacy_loss noise_cdf : ℝ → ℝ)
    (tail_lower tail_upper : ℝ) (tail_pmf : List (ℝ × ℝ)) (tail_infinity : ℝ)
    (pess : Bool) (I : ℝ) (fuel : ℕ) : PLD :=
  let res := continuous_construction_loop inverse_privacy_loss noise_cdf
    tail_upper pess I fuel tail_lower ⌊privacy_loss tail_lower / I⌋
    (tail_pmf.map fun e => round_fn pess (e.1 / I)).toFinset
    (fun k => ((tail_pmf.filter fun e => round_fn pess (e.1 / I) = k).map Prod.snd).sum)
  { keys := res.1
    mass := res.2
    value_discretization_interval := I
    infinity_mass := tail_infinity }

/-- Floats extended with `math.inf` and `-math.inf`, over exact rational
values, for the closed-form Laplace functions. -/
inductive XRat
  | neg_inf
  | fin (q : ℚ)
  | pos_inf
deriving DecidableEq

/-- `LaplacePrivacyLossDistribution.privacy_loss` (lines 854-864):
`(|x - sensitivity| - |x|) / parameter`. -/
def laplace_privacy_loss (parameter sensitivity x : ℚ) : ℚ :=
  (|x - sensitivity| - |x|) / parameter

/-- `LaplacePrivacyLossDistribution.inverse_privacy_loss` (lines 866-885). -/
def laplace_inverse_privacy_loss (parameter sensitivity l : ℚ) : XRat :=
  if sensitivity / parameter < l then .neg_inf
  else if l ≤ -(sensitivity / parameter) then .pos_inf
  else .fin (1/2 * (sensitivity - l * parameter))

/-- The divergence function determined by a loop state of `eps_loop`: the
accumulated linear part `mass_upper - exp(ε) * mass_lower` plus the
hockey-stick contributions of the keys not yet processed.  At the initial
state (`mass_upper = infinity_mass`, `mass_lower = 0`, all keys pending) this
is `get_delta_for_epsilon` whenever all stored masses are positive. -/
noncomputable def loop_divergence (I : ℝ) (mass : ℤ → ℝ) (l : List ℤ)
    (mu ml ε : ℝ) : ℝ :=
  mu - Real.exp ε * ml +
    (l.map fun i : ℤ =>
      if ε < (i : ℝ) * I then (1 - Real.exp (ε - (i : ℝ) * I)) * mass i else 0).sum

/-- The dictionary convolution in the words of the specification (§4.1 and
the `compose` contract): at each key, the sum over all decompositions
`key1 + key2 = key` of the two stored masses' product. -/
noncomputable def spec_convolve_mass (a b : PLD) (key : ℤ) : ℝ :=
  ∑ k1 ∈ a.keys, ∑ k2 ∈ b.keys.filter (fun k2 => k1 + k2 = key),
    a.mass k1 * b.mass k2

/-- The value of `from_randomized_response(noise_parameter=1/2, num_buckets=2,
pessimistic_estimate=True, value_discretization_interval=1)`: privacy losses
`log 3` and `-log 3` round to buckets `2` and `-1`, and bucket `0` is touched
by `+= pne * (num_buckets - 2)`, i.e. with mass `0`. -/
noncomputable def rr_example : PLD where
  keys := {2, -1, 0}
  mass := fun k => if k = 2 then 3/4 else if k = -1 then 1/4 else 0
  value_discretization_interval := 1
  infinity_mass := 0

/-- The value of `rr_example.self_compose(1)`: the zero-mass bucket `0` is
dropped by `list_to_dictionary`. -/
noncomputable def rr_self_example : PLD where
  keys := {-1, 2}
  mass := fun k => if k = 2 then 3/4 else if k = -1 then 1/4 else 0
  value_discretization_interval := 1
  infinity_mass := 0

/-- A one-bucket PLD used to instantiate hypothesis-bearing theorems. -/
noncomputable def pld_example : PLD where
  keys := {1}
  mass := fun k => if k = 1 then 1/2 else 0
  value_discretization_interval := 1
  infinity_mass := 0

/-- A two-PLD pair with empty histograms and equal granularity. -/
noncomputable def empty_pld : PLD where
  keys := ∅
  mass := fun _ => 0
  value_discretization_interval := 1
  infinity_mass := 0

/-- The uniform distribution on two outcomes, as a log-probability mass
function dictionary. -/
noncomputable def half_pmf : LogPmf Bool where
  support := {true, false}
  logp := fun _ => some (Real.log (1/2))

/-! ## General helper lemmas -/

lemma map_sum_le {l : List ℤ} {f g : ℤ → ℝ} (h : ∀ i ∈ l, f i ≤ g i) :
    (l.map f).sum ≤ (l.map g).sum := by
  induction l with
  | nil => simp
  | cons a l ih =>
    simp only [List.map_cons, List.sum_cons]
    exact add_le_add (h a (List.mem_cons_self a l))
      (ih fun i hi => h i (List.mem_cons_of_mem a hi))

lemma map_sum_nonneg {l : List ℤ} {f : ℤ → ℝ} (h : ∀ i ∈ l, 0 ≤ f i) :
    0 ≤ (l.map f).sum := by
  induction l with
  | nil => simp
  | cons a l ih =>
    simp only [List.map_cons, List.sum_cons]
    exact add_nonneg (h a (List.mem_cons_self a l))
      (ih fun i hi => h i (List.mem_cons_of_mem a hi))

lemma map_sum_zero {l : List ℤ} {f : ℤ → ℝ} (h : ∀ i ∈ l, f i = 0) :
    (l.map f).sum = 0 := by
  induction l with
  | nil => simp
  | cons a l ih =>
    simp only [List.map_cons, List.sum_cons]
    rw [h a (List.mem_cons_self a l), ih fun i hi => h i (List.mem_cons_of_mem a hi),
      add_zero]

/-- The summand of `get_delta_for_epsilon` is non-increasing in epsilon. -/
lemma hockey_term_anti {v m ε₁ ε₂ : ℝ} (hm : 0 ≤ m) (h : ε₁ ≤ ε₂) :
    (if ε₂ < v then (1 - Real.exp (ε₂ - v)) * m else 0) ≤
      (if ε₁ < v then (1 - Real.exp (ε₁ - v)) * m else 0) := by
  by_cases h2 : ε₂ < v
  · rw [if_pos h2, if_pos (lt_of_le_of_lt h h2)]
    apply mul_le_mul_of_nonneg_right _ hm
    have := Real.exp_le_exp.mpr (sub_le_sub_right h v)
    linarith
  · rw [if_neg h2]
    by_cases h1 : ε₁ < v
    · rw [if_pos h1]
      apply mul_nonneg _ hm
      have : Real.exp (ε₁ - v) ≤ 1 := Real.exp_le_one_iff.mpr (by linarith)
      linarith
    · rw [if_neg h1]

lemma hockey_term_nonneg {v m ε : ℝ} (hm : 0 ≤ m) :
    0 ≤ if ε < v then (1 - Real.exp (ε - v)) * m else 0 := by
  by_cases h : ε < v
  · rw [if_pos h]
    apply mul_nonneg _ hm
    have : Real.exp (ε - v) ≤ 1 := Real.exp_le_one_iff.mpr (by linarith)
    linarith
  · rw [if_neg h]

/-! ## C6: monotonicity of the hockey-stick divergence -/

/-- C6 — confirmed.  For every PLD with non-negative histogram masses and
every `epsilon1 ≤ epsilon2`, the computed divergence satisfies
`get_delta_for_epsilon(epsilon1) ≥ get_delta_for_epsilon(epsilon2)`: the
hockey-stick divergence read off the histogram is non-increasing in epsilon. -/
theorem C6_divergence_monotone (pld : PLD)
    (hmass : ∀ i ∈ pld.keys, 0 ≤ pld.mass i) (ε₁ ε₂ : ℝ) (h : ε₁ ≤ ε₂) :
    get_delta_for_epsilon pld ε₂ ≤ get_delta_for_epsilon pld ε₁ := by
  unfold get_delta_for_epsilon
  apply add_le_add_left
  apply Finset.sum_le_sum
  intro i _
  by_cases hm : 0 < pld.mass i
  · simp only [hm, and_true]
    exact hockey_term_anti hm.le h
  · simp only [hm, and_false, if_false, le_refl]

/-- Witness for C6 at the concrete one-bucket PLD `pld_example` and
`epsilon1 = 0 ≤ 1 = epsilon2`. -/
theorem C6_divergence_monotone_witness :
    (∀ i ∈ pld_example.keys, 0 ≤ pld_example.mass i) ∧ (0 : ℝ) ≤ 1 ∧
      get_delta_for_epsilon pld_example 1 ≤ get_delta_for_epsilon pld_example 0 := by
  have hmass : ∀ i ∈ pld_example.keys, 0 ≤ pld_example.mass i := by
    intro i _
    simp only [pld_example]
    split <;> norm_num
  exact ⟨hmass, by norm_num, C6_divergence_monotone pld_example hmass 0 1 (by norm_num)⟩

/-! ## C10: `from_privacy_parameters` with `epsilon = 0` -/

/-- C10 — confirmed.  With `epsilon = 0` both point masses of
`from_privacy_parameters` land on the dictionary key `0`, and the
dict-literal overwrite leaves the single bucket `0` with mass
`(1-delta)/(1+exp(0)) = (1-delta)/2`, so
`infinity_mass + total histogram mass = delta + (1-delta)/2 < 1` for
`delta < 1`. -/
theorem C10_eps_zero_collision (δ I : ℝ) (hI : 0 < I) (h0 : 0 ≤ δ) (h1 : δ ≤ 1) :
    (from_privacy_parameters 0 δ I).keys = {0} ∧
    (from_privacy_parameters 0 δ I).mass 0 = (1 - δ) / 2 ∧
    (from_privacy_parameters 0 δ I).infinity_mass +
        ∑ k ∈ (from_privacy_parameters 0 δ I).keys,
          (from_privacy_parameters 0 δ I).mass k = δ + (1 - δ) / 2 ∧
    (δ < 1 →
      (from_privacy_parameters 0 δ I).infinity_mass +
        ∑ k ∈ (from_privacy_parameters 0 δ I).keys,
          (from_privacy_parameters 0 δ I).mass k < 1) := by
  have hc : ⌈(0 : ℝ) / I⌉ = 0 := by norm_num
  have hc' : ⌈-(0 : ℝ) / I⌉ = 0 := by norm_num
  have hm : (from_privacy_parameters 0 δ I).mass 0 = (1 - δ) / 2 := by
    simp [from_privacy_parameters, hc, hc', Real.exp_zero]
    ring
  have hk : (from_privacy_parameters 0 δ I).keys = {0} := by
    simp [from_privacy_parameters, hc, hc']
  refine ⟨hk, hm, ?_, ?_⟩
  · rw [hk, Finset.sum_singleton, hm]
    simp [from_privacy_parameters]
  · intro hδ
    rw [hk, Finset.sum_singleton, hm]
    simp only [from_privacy_parameters]
    linarith

/-- Witness for C10 at `delta = 1/2`, `interval = 1`. -/
theorem C10_eps_zero_collision_witness :
    (0 : ℝ) < 1 ∧ (0 : ℝ) ≤ 1/2 ∧ (1 : ℝ)/2 ≤ 1 ∧
      ((from_privacy_parameters 0 (1/2) 1).keys = {0} ∧
       (from_privacy_parameters 0 (1/2) 1).mass 0 = (1 - 1/2) / 2 ∧
       (from_privacy_parameters 0 (1/2) 1).infinity_mass +
          ∑ k ∈ (from_privacy_parameters 0 (1/2) 1).keys,
            (from_privacy_parameters 0 (1/2) 1).mass k = 1/2 + (1 - 1/2) / 2 ∧
       ((1:ℝ)/2 < 1 →
        (from_privacy_parameters 0 (1/2) 1).infinity_mass +
          ∑ k ∈ (from_privacy_parameters 0 (1/2) 1).keys,
            (from_privacy_parameters 0 (1/2) 1).mass k < 1)) :=
  ⟨by norm_num, by norm_num, by norm_num,
    C10_eps_zero_collision (1/2) 1 (by norm_num) (by norm_num) (by norm_num)⟩

/-! ## Evaluating `from_randomized_response(1/2, 2, True, 1)` -/

lemma one_lt_log_three : 1 < Real.log 3 := by
  rw [Real.lt_log_iff_exp_lt (by norm_num : (0:ℝ) < 3)]
  have := Real.exp_one_lt_d9
  linarith

lemma log_three_lt_two : Real.log 3 < 2 := by
  rw [Real.log_lt_iff_lt_exp (by norm_num : (0:ℝ) < 3)]
  have h := Real.exp_one_gt_d9
  have h2 : Real.exp 2 = Real.exp 1 * Real.exp 1 := by
    rw [← Real.exp_add]; norm_num
  nlinarith [Real.exp_pos 1]

lemma ceil_log_three : ⌈Real.log 3⌉ = 2 := by
  rw [Int.ceil_eq_iff]
  constructor
  · push_cast
    linarith [one_lt_log_three]
  · push_cast
    linarith [log_three_lt_two]

lemma ceil_neg_log_three : ⌈-Real.log 3⌉ = -1 := by
  rw [Int.ceil_eq_iff]
  constructor
  · push_cast
    linarith [log_three_lt_two]
  · push_cast
    linarith [one_lt_log_three]

/-- Unfolding lemma for the success branch of `from_randomized_response`. -/
lemma from_rr_ok {p : ℝ} {nb : ℤ} {pess : Bool} {I : ℝ}
    (h1 : ¬(p ≤ 0 ∨ 1 ≤ p)) (h2 : ¬(nb ≤ 1)) :
    from_randomized_response p nb pess I = Except.ok
      { keys := {round_fn pess (Real.log (((1 - p) + p / (nb:ℝ)) / (p / (nb:ℝ))) / I),
                 round_fn pess (Real.log ((p / (nb:ℝ)) / ((1 - p) + p / (nb:ℝ))) / I), 0}
        mass := fun k =>
          (if k = round_fn pess (Real.log (((1 - p) + p / (nb:ℝ)) / (p / (nb:ℝ))) / I)
            then (1 - p) + p / (nb:ℝ) else 0) +
          (if k = round_fn pess (Real.log ((p / (nb:ℝ)) / ((1 - p) + p / (nb:ℝ))) / I)
            then p / (nb:ℝ) else 0) +
          (if k = 0 then (p / (nb:ℝ)) * ((nb:ℝ) - 2) else 0)
        value_discretization_interval := I
        infinity_mass := 0 } := by
  unfold from_randomized_response
  rw [if_neg h1, if_neg h2]

/-- `from_randomized_response(1/2, 2, True, 1)` evaluates to `rr_example`:
the three touched buckets are `2 = ceil(log 3)`, `-1 = ceil(-log 3)` and `0`,
and bucket `0` holds mass `(1/4) * (2 - 2) = 0`. -/
theorem rr_eval : from_randomized_response (1/2) 2 true 1 = Except.ok rr_example := by
  rw [from_rr_ok (by norm_num) (by norm_num)]
  have hpq : ((1:ℝ) - 1/2) + (1/2) / ((2:ℤ):ℝ) = 3/4 := by push_cast; norm_num
  have hpn : ((1:ℝ)/2) / ((2:ℤ):ℝ) = 1/4 := by push_cast; norm_num
  have hr1 : (((1:ℝ) - 1/2) + (1/2) / ((2:ℤ):ℝ)) / ((1/2) / ((2:ℤ):ℝ)) = 3 := by
    push_cast; norm_num
  have hr2 : (((1:ℝ)/2) / ((2:ℤ):ℝ)) / ((1 - 1/2) + (1/2) / ((2:ℤ):ℝ)) = (3:ℝ)⁻¹ := by
    push_cast; norm_num
  have hk1 : round_fn true (Real.log ((((1:ℝ) - 1/2) + (1/2) / ((2:ℤ):ℝ)) /
      ((1/2) / ((2:ℤ):ℝ))) / 1) = 2 := by
    rw [hr1, div_one, round_fn, if_pos rfl, ceil_log_three]
  have hk2 : round_fn true (Real.log ((((1:ℝ)/2) / ((2:ℤ):ℝ)) /
      ((1 - 1/2) + (1/2) / ((2:ℤ):ℝ))) / 1) = -1 := by
    rw [hr2, Real.log_inv, div_one, round_fn, if_pos rfl, ceil_neg_log_three]
  rw [hk1, hk2, hpq, hpn]
  congr 1
  unfold rr_example
  congr 1
  funext k
  by_cases h2 : k = 2
  · subst h2; norm_num
  · by_cases hm1 : k = -1
    · subst hm1; norm_num
    · by_cases h0 : k = 0
      · subst h0
        push_cast
        norm_num
      · simp [h2, hm1, h0]

/-! ## C9: input validation of `from_randomized_response` -/

/-- C9 — confirmed.  `from_randomized_response` raises its configuration
error exactly when `noise_parameter ≤ 0`, `noise_parameter ≥ 1` or
`num_buckets ≤ 1`; on every valid input it returns a PLD with
`infinity_mass = 0`. -/
theorem C9_randomized_response_validation (p : ℝ) (nb : ℤ) (pess : Bool) (I : ℝ) :
    ((∃ e, from_randomized_response p nb pess I = .error e) ↔
      (p ≤ 0 ∨ 1 ≤ p ∨ nb ≤ 1)) ∧
    ∀ pld, from_randomized_response p nb pess I = .ok pld → pld.infinity_mass = 0 := by
  unfold from_randomized_response
  by_cases h1 : p ≤ 0 ∨ 1 ≤ p
  · rw [if_pos h1]
    refine ⟨⟨fun _ => ?_, fun _ => ⟨_, rfl⟩⟩, fun pld h => by cases h⟩
    tauto
  · rw [if_neg h1]
    by_cases h2 : nb ≤ 1
    · rw [if_pos h2]
      refine ⟨⟨fun _ => ?_, fun _ => ⟨_, rfl⟩⟩, fun pld h => by cases h⟩
      tauto
    · rw [if_neg h2]
      refine ⟨⟨fun ⟨e, he⟩ => ?_, fun h => ?_⟩, fun pld h => ?_⟩
      · cases he
      · tauto
      · cases h
        rfl

/-- Witness for C9: the valid input `(1/2, 2)` produces `rr_example`,
whose infinity mass is `0`. -/
theorem C9_randomized_response_validation_witness :
    from_randomized_response (1/2) 2 true 1 = Except.ok rr_example ∧
      rr_example.infinity_mass = 0 :=
  ⟨rr_eval, (C9_randomized_response_validation (1/2) 2 true 1).2 rr_example rr_eval⟩

/-! ## C2: the positive-mass storage invariant -/

/-- C2 — counterexample.  The claim asserts that no factory ever stores a
bucket with mass `≤ 0`.  But `from_randomized_response(1/2, 2, True, 1)`
stores bucket `0` (touched by `+= pne * (num_buckets - 2)`) with mass `0`. -/
theorem C2_counterexample :
    from_randomized_response (1/2) 2 true 1 = Except.ok rr_example ∧
      (0 : ℤ) ∈ rr_example.keys ∧ rr_example.mass 0 = 0 := by
  refine ⟨rr_eval, ?_, ?_⟩
  · simp [rr_example]
  · simp [rr_example]

/-! ## C8: the Laplace mechanism's inverse privacy loss -/

/-- C8 — confirmed.  For the Laplace mechanism with `parameter > 0` and
`sensitivity > 0`, `inverse_privacy_loss` returns `+inf` for
`L ≤ -sensitivity/parameter`, the closed form `0.5*(sensitivity - L*parameter)`
for `-sensitivity/parameter < L ≤ sensitivity/parameter`, `-inf` for
`L > sensitivity/parameter`, and in the finite range the returned value is the
largest `x` with `privacy_loss(x) = (|x - sensitivity| - |x|)/parameter ≥ L`. -/
theorem C8_laplace_inverse (b s l : ℚ) (hb : 0 < b) (hs : 0 < s) :
    (l ≤ -(s / b) → laplace_inverse_privacy_loss b s l = .pos_inf) ∧
    (s / b < l → laplace_inverse_privacy_loss b s l = .neg_inf) ∧
    (-(s / b) < l → l ≤ s / b →
      laplace_inverse_privacy_loss b s l = .fin (1/2 * (s - l * b)) ∧
      l ≤ laplace_privacy_loss b s (1/2 * (s - l * b)) ∧
      ∀ x : ℚ, l ≤ laplace_privacy_loss b s x → x ≤ 1/2 * (s - l * b)) := by
  have hsb : 0 < s / b := div_pos hs hb
  refine ⟨fun h => ?_, fun h => ?_, fun hlo hhi => ?_⟩
  · unfold laplace_inverse_privacy_loss
    rw [if_neg (by push_neg; linarith), if_pos h]
  · unfold laplace_inverse_privacy_loss
    rw [if_pos h]
  · have hneg : -s < l * b := by
      have h1 : -(s / b) * b < l * b := mul_lt_mul_of_pos_right hlo hb
      rw [neg_mul, div_mul_cancel₀ _ (ne_of_gt hb)] at h1
      exact h1
    have hpos : l * b ≤ s := by
      have h1 : l * b ≤ (s / b) * b := mul_le_mul_of_nonneg_right hhi hb.le
      rw [div_mul_cancel₀ _ (ne_of_gt hb)] at h1
      exact h1
    have hx00 : 0 ≤ 1/2 * (s - l * b) := by linarith
    have hx0s : 1/2 * (s - l * b) < s := by linarith
    refine ⟨?_, ?_, ?_⟩
    · unfold laplace_inverse_privacy_loss
      rw [if_neg (by push_neg; exact hhi), if_neg (by push_neg; exact hlo)]
    · unfold laplace_privacy_loss
      rw [abs_of_nonpos (by linarith), abs_of_nonneg hx00, le_div_iff hb]
      ring_nf
      linarith
    · intro x hx
      by_contra hgt
      push_neg at hgt
      unfold laplace_privacy_loss at hx
      rw [le_div_iff hb] at hx
      rcases le_or_lt x s with hxs | hxs
      · rw [abs_of_nonpos (by linarith), abs_of_nonneg (by linarith)] at hx
        linarith
      · rw [abs_of_pos (by linarith), abs_of_nonneg (by linarith)] at hx
        linarith

/-- Witness for C8 at `parameter = 1`, `sensitivity = 1`, `L = 0`:
the inverse loss is the closed-form value `1/2`. -/
theorem C8_laplace_inverse_witness :
    (0:ℚ) < 1 ∧
      laplace_inverse_privacy_loss 1 1 0 = .fin (1/2 * (1 - 0 * 1)) :=
  ⟨by norm_num,
    ((C8_laplace_inverse 1 1 0 (by norm_num) (by norm_num)).2.2
      (by norm_num) (by norm_num)).1⟩

/-! ## C1: the discrete-noise bucket key is not divided by the granularity -/

/-- C1 — code bug.  The shared additive-noise constructor's discrete branch
(line 633) files the probability mass `noise_cdf(x) - noise_cdf(x-1)` under
the key `round_fn(privacy_loss(x))`, not under
`round_fn(privacy_loss(x) / value_discretization_interval)` as the spec (and
the class's own attribute documentation, and the tail handling five lines
above) prescribe.  Concretely, for the discrete Laplace mechanism with
`parameter = 1`, `sensitivity = 3`, `value_discretization_interval = 1/10`
and `x = 1` (privacy loss `1`), the mass `cdf(1) - cdf(0)` lands in bucket
`1`, while the documented key is `ceil(1 / (1/10)) = 10`, a bucket that
receives nothing and is not even present. -/
theorem C1_discrete_key_not_divided (cdf : ℤ → ℝ) :
    (discrete_laplace_pld 1 3 cdf true (1/10)).mass 1 = cdf 1 - cdf 0 ∧
    (discrete_laplace_pld 1 3 cdf true (1/10)).mass 10 = 0 ∧
    (10 : ℤ) ∉ (discrete_laplace_pld 1 3 cdf true (1/10)).keys ∧
    round_fn true (discrete_laplace_privacy_loss 1 3 1) = 1 ∧
    round_fn true (discrete_laplace_privacy_loss 1 3 1 / (1/10)) = 10 := by
  have l1 : discrete_laplace_privacy_loss 1 3 1 = 1 := by
    unfold discrete_laplace_privacy_loss
    norm_num
  have l2 : discrete_laplace_privacy_loss 1 3 2 = -1 := by
    unfold discrete_laplace_privacy_loss
    norm_num
  have hU : round_fn true (((3:ℤ):ℝ) * 1 / (1/10)) = 30 := by
    rw [round_fn, if_pos rfl]
    norm_num
  have hL : round_fn true (-((3:ℤ):ℝ) * 1 / (1/10)) = -30 := by
    rw [round_fn, if_pos rfl,
      show -((3:ℤ):ℝ) * 1 / (1/10) = ((-30 : ℤ) : ℝ) by push_cast; ring]
    exact Int.ceil_intCast _
  have hr1 : round_fn true (discrete_laplace_privacy_loss 1 3 1) = 1 := by
    rw [l1, round_fn, if_pos rfl]
    norm_num
  have hr2 : round_fn true (discrete_laplace_privacy_loss 1 3 2) = -1 := by
    rw [l2, round_fn, if_pos rfl, show ((-1:ℝ)) = ((-1 : ℤ) : ℝ) by norm_num]
    exact Int.ceil_intCast _
  have hIcc : Finset.Icc (1:ℤ) (3 - 1) = {1, 2} := by decide
  refine ⟨?_, ?_, ?_, hr1, ?_⟩
  · show (if (1:ℤ) = round_fn true (((3:ℤ):ℝ) * 1 / (1/10)) then cdf 0 else 0) +
      (if (1:ℤ) = round_fn true (-((3:ℤ):ℝ) * 1 / (1/10)) then cdf (-3) else 0) +
      ∑ x ∈ (Finset.Icc 1 (3 - 1)).filter
          (fun x => round_fn true (discrete_laplace_privacy_loss 1 3 x) = 1),
        (cdf x - cdf (x - 1)) = cdf 1 - cdf 0
    rw [hU, hL, hIcc]
    rw [if_neg (by norm_num), if_neg (by norm_num)]
    rw [Finset.filter_insert, if_pos hr1, Finset.filter_singleton,
      if_neg (by rw [hr2]; norm_num)]
    simp
  · show (if (10:ℤ) = round_fn true (((3:ℤ):ℝ) * 1 / (1/10)) then cdf 0 else 0) +
      (if (10:ℤ) = round_fn true (-((3:ℤ):ℝ) * 1 / (1/10)) then cdf (-3) else 0) +
      ∑ x ∈ (Finset.Icc 1 (3 - 1)).filter
          (fun x => round_fn true (discrete_laplace_privacy_loss 1 3 x) = 10),
        (cdf x - cdf (x - 1)) = 0
    rw [hU, hL, hIcc]
    rw [if_neg (by norm_num), if_neg (by norm_num)]
    rw [Finset.filter_insert, if_neg (by rw [hr1]; norm_num), Finset.filter_singleton,
      if_neg (by rw [hr2]; norm_num)]
    simp
  · show (10:ℤ) ∉
      ({round_fn true (((3:ℤ):ℝ) * 1 / (1/10)),
        round_fn true (-((3:ℤ):ℝ) * 1 / (1/10))} : Finset ℤ) ∪
      (Finset.Icc 1 (3 - 1)).image
        (fun x => round_fn true (discrete_laplace_privacy_loss 1 3 x))
    rw [hU, hL, hIcc]
    intro hmem
    rcases Finset.mem_union.mp hmem with hmem | hmem
    · rcases Finset.mem_insert.mp hmem with h | h
      · exact absurd h (by norm_num)
      · exact absurd (Finset.mem_singleton.mp h) (by norm_num)
    · rcases Finset.mem_image.mp hmem with ⟨x, hx, hxe⟩
      rcases Finset.mem_insert.mp hx with h | h
      · subst h
        rw [hr1] at hxe
        exact absurd hxe (by norm_num)
      · rw [Finset.mem_singleton.mp h] at hxe
        rw [hr2] at hxe
        exact absurd hxe (by norm_num)
  · rw [l1, round_fn, if_pos rfl]
    norm_num

/-! ## C3: mass conservation in `from_two_probability_mass_functions` -/

lemma exp_or_zero_nonneg (x : Option ℝ) : 0 ≤ exp_or_zero x := by
  cases x with
  | none => exact le_refl 0
  | some r => exact (Real.exp_pos r).le

lemma mem_fw_body {α : Type} [DecidableEq α] {lower upper : LogPmf α}
    {bound : Option ℝ} {o : α} :
    o ∈ fw_body lower upper bound ↔
      o ∈ upper.support ∧ ¬ lower.get o = none ∧ log_gt (upper.get o) bound := by
  unfold fw_body
  rw [Finset.mem_filter]
  constructor
  · rintro ⟨hmem, hlo, hgt⟩
    have hup : o ∈ upper.support := by
      by_contra hno
      rw [LogPmf.get, if_neg hno] at hgt
      exact hgt
    refine ⟨hup, ?_, hgt⟩
    rw [LogPmf.get, if_pos hmem]
    exact hlo
  · rintro ⟨hup, hlg, hgt⟩
    have hmem : o ∈ lower.support := by
      by_contra hno
      rw [LogPmf.get, if_neg hno] at hlg
      exact hlg rfl
    refine ⟨hmem, ?_, hgt⟩
    rw [LogPmf.get, if_pos hmem] at hlg
    exact hlg

/-- The two grouping passes of the histogram construction (first by raw
privacy-loss value, then by rounded bucket) preserve the total mass. -/
lemma fw_hist_sum {α : Type} [DecidableEq α] (lower upper : LogPmf α)
    (pess : Bool) (I : ℝ) (bound : Option ℝ) :
    ∑ k ∈ (from_two_probability_mass_functions lower upper pess I bound).keys,
        (from_two_probability_mass_functions lower upper pess I bound).mass k =
      ∑ o ∈ fw_body lower upper bound, exp_or_zero (upper.get o) := by
  show ∑ k ∈ (fw_loss_values lower upper bound).image (fun v => round_fn pess (v / I)),
      ∑ v ∈ (fw_loss_values lower upper bound).filter
        (fun v => round_fn pess (v / I) = k), fw_raw_mass lower upper bound v = _
  rw [Finset.sum_fiberwise_of_maps_to (fun v hv => Finset.mem_image_of_mem _ hv)]
  unfold fw_raw_mass fw_loss_values
  rw [Finset.sum_fiberwise_of_maps_to (fun o ho => Finset.mem_image_of_mem _ ho)]

lemma fw_infinity_eq {α : Type} [DecidableEq α] (lower upper : LogPmf α) :
    fw_infinity_mass lower upper =
      ∑ o ∈ upper.support.filter (fun o => lower.get o = none),
        exp_or_zero (upper.get o) :=
  (Finset.sum_filter _ _).symm

lemma fw_truncated_eq {α : Type} [DecidableEq α] (lower upper : LogPmf α)
    (bound : Option ℝ) :
    fw_truncated_mass lower upper true bound =
      ∑ o ∈ upper.support.filter
          (fun o => ¬ lower.get o = none ∧ ¬ log_gt (upper.get o) bound),
        exp_or_zero (upper.get o) := by
  unfold fw_truncated_mass
  rw [if_pos rfl]
  refine (Finset.sum_subset ?_ ?_).symm
  · intro o ho
    rw [Finset.mem_filter] at ho ⊢
    have hlg : ¬ lower.get o = none := ho.2.1
    have hmem : o ∈ lower.support := by
      by_contra hno
      rw [LogPmf.get, if_neg hno] at hlg
      exact hlg rfl
    refine ⟨hmem, ?_, ho.2.2⟩
    rw [LogPmf.get, if_pos hmem] at hlg
    exact hlg
  · intro o ho hno
    rw [Finset.mem_filter] at ho
    by_cases hup : o ∈ upper.support
    · exfalso
      apply hno
      rw [Finset.mem_filter]
      refine ⟨hup, ?_, ho.2.2⟩
      rw [LogPmf.get, if_pos ho.1]
      exact ho.2.1
    · rw [LogPmf.get, if_neg hup]
      rfl

/-- C3 — confirmed.  For complete input distributions (total probability 1),
`from_two_probability_mass_functions` conserves mass exactly under the
pessimistic estimate (`infinity_mass + Σ histogram = 1`) and loses at most
the truncated mass under the optimistic estimate (`≤ 1`). -/
theorem C3_mass_conservation {α : Type} [DecidableEq α] (lower upper : LogPmf α)
    (I : ℝ) (bound : Option ℝ)
    (hu : ∑ o ∈ upper.support, exp_or_zero (upper.logp o) = 1)
    (hl : ∑ o ∈ lower.support, exp_or_zero (lower.logp o) = 1) :
    ((from_two_probability_mass_functions lower upper true I bound).infinity_mass +
      ∑ k ∈ (from_two_probability_mass_functions lower upper true I bound).keys,
        (from_two_probability_mass_functions lower upper true I bound).mass k = 1) ∧
    ((from_two_probability_mass_functions lower upper false I bound).infinity_mass +
      ∑ k ∈ (from_two_probability_mass_functions lower upper false I bound).keys,
        (from_two_probability_mass_functions lower upper false I bound).mass k ≤ 1) := by
  have hu' : ∑ o ∈ upper.support, exp_or_zero (upper.get o) = 1 := by
    rw [← hu]
    exact Finset.sum_congr rfl fun o ho => by rw [LogPmf.get, if_pos ho]
  have hsplit1 :
      ∑ o ∈ upper.support.filter (fun o => lower.get o = none),
          exp_or_zero (upper.get o) +
        ∑ o ∈ upper.support.filter (fun o => ¬ lower.get o = none),
          exp_or_zero (upper.get o) = 1 := by
    rw [Finset.sum_filter_add_sum_filter_not]
    exact hu'
  have hBg :
      (upper.support.filter (fun o => ¬ lower.get o = none)).filter
        (fun o => log_gt (upper.get o) bound) =
      upper.support.filter
        (fun o => ¬ lower.get o = none ∧ log_gt (upper.get o) bound) :=
    Finset.filter_filter _ _ _
  have hBn :
      (upper.support.filter (fun o => ¬ lower.get o = none)).filter
        (fun o => ¬ log_gt (upper.get o) bound) =
      upper.support.filter
        (fun o => ¬ lower.get o = none ∧ ¬ log_gt (upper.get o) bound) :=
    Finset.filter_filter _ _ _
  have hsplit2 :
      ∑ o ∈ upper.support.filter
          (fun o => ¬ lower.get o = none ∧ log_gt (upper.get o) bound),
          exp_or_zero (upper.get o) +
        ∑ o ∈ upper.support.filter
          (fun o => ¬ lower.get o = none ∧ ¬ log_gt (upper.get o) bound),
          exp_or_zero (upper.get o) =
      ∑ o ∈ upper.support.filter (fun o => ¬ lower.get o = none),
          exp_or_zero (upper.get o) := by
    rw [← hBg, ← hBn]
    exact Finset.sum_filter_add_sum_filter_not _ _ _
  have hbody : fw_body lower upper bound =
      upper.support.filter
        (fun o => ¬ lower.get o = none ∧ log_gt (upper.get o) bound) := by
    ext o
    rw [mem_fw_body, Finset.mem_filter]
  constructor
  · have hrec : (from_two_probability_mass_functions lower upper true I bound).infinity_mass =
        fw_infinity_mass lower upper + fw_truncated_mass lower upper true bound := rfl
    rw [hrec, fw_hist_sum, fw_infinity_eq, fw_truncated_eq, hbody]
    linarith [hsplit1, hsplit2]
  · have hrec : (from_two_probability_mass_functions lower upper false I bound).infinity_mass =
        fw_infinity_mass lower upper + fw_truncated_mass lower upper false bound := rfl
    have htr0 : fw_truncated_mass lower upper false bound = 0 := by
      unfold fw_truncated_mass
      rw [if_neg (by simp)]
    rw [hrec, fw_hist_sum, fw_infinity_eq, htr0, hbody, add_zero]
    have hle : ∑ o ∈ upper.support.filter
          (fun o => ¬ lower.get o = none ∧ log_gt (upper.get o) bound),
          exp_or_zero (upper.get o) ≤
        ∑ o ∈ upper.support.filter (fun o => ¬ lower.get o = none),
          exp_or_zero (upper.get o) := by
      rw [← hBg]
      exact Finset.sum_le_sum_of_subset_of_nonneg (Finset.filter_subset _ _)
        (fun o _ _ => exp_or_zero_nonneg _)
    linarith [hsplit1, hsplit2]

/-- Witness for C3: both distributions are the uniform distribution on two
outcomes, whose exponentiated log-masses sum to `1`. -/
theorem C3_mass_conservation_witness :
    (∑ o ∈ half_pmf.support, exp_or_zero (half_pmf.logp o) = 1) ∧
    ((from_two_probability_mass_functions half_pmf half_pmf true 1 none).infinity_mass +
      ∑ k ∈ (from_two_probability_mass_functions half_pmf half_pmf true 1 none).keys,
        (from_two_probability_mass_functions half_pmf half_pmf true 1 none).mass k = 1) := by
  have hsum : ∑ o ∈ half_pmf.support, exp_or_zero (half_pmf.logp o) = 1 := by
    unfold half_pmf
    rw [show ({true, false} : Finset Bool) = insert true {false} from rfl,
      Finset.sum_insert (by simp), Finset.sum_singleton]
    show Real.exp (Real.log (1/2)) + Real.exp (Real.log (1/2)) = 1
    rw [Real.exp_log (by norm_num)]
    norm_num
  exact ⟨hsum, (C3_mass_conservation half_pmf half_pmf 1 none hsum hsum).1⟩

/-! ## The dense-list convolution pipeline -/

lemma getD_range_map (f : ℕ → ℝ) (N n : ℕ) :
    ((List.range N).map f).getD n 0 = if n < N then f n else 0 := by
  by_cases h : n < N
  · rw [if_pos h, List.getD_eq_getElem _ _ (by simpa using h)]
    simp
  · rw [if_neg h, List.getD_eq_default]
    simpa using le_of_not_lt h

lemma dict_get_of_not_mem {keys : Finset ℤ} {mass : ℤ → ℝ} {k : ℤ}
    (hk : k ∉ keys) : dict_get keys mass k = 0 :=
  if_neg hk

lemma dict_get_lt {keys : Finset ℤ} (mass : ℤ → ℝ) (h : keys.Nonempty) {k : ℤ}
    (hk : k < keys.min' h) : dict_get keys mass k = 0 := by
  apply dict_get_of_not_mem
  intro hmem
  exact absurd (Finset.min'_le _ _ hmem) (not_le.mpr hk)

lemma dict_get_gt {keys : Finset ℤ} (mass : ℤ → ℝ) (h : keys.Nonempty) {k : ℤ}
    (hk : keys.max' h < k) : dict_get keys mass k = 0 := by
  apply dict_get_of_not_mem
  intro hmem
  exact absurd (Finset.le_max' _ _ hmem) (not_le.mpr hk)

/-- Every entry of the dense list produced by `dictionary_to_list` is the
dictionary lookup at the shifted position — also (vacuously, both sides `0`)
beyond the end of the list. -/
lemma dtl_getD (keys : Finset ℤ) (mass : ℤ → ℝ) (h : keys.Nonempty) (j : ℕ) :
    ((List.range (keys.max' h - keys.min' h + 1).toNat).map fun i : ℕ =>
        dict_get keys mass (keys.min' h + (i : ℤ))).getD j 0 =
      dict_get keys mass (keys.min' h + (j : ℤ)) := by
  rw [getD_range_map]
  by_cases hj : j < (keys.max' h - keys.min' h + 1).toNat
  · rw [if_pos hj]
  · rw [if_neg hj]
    symm
    apply dict_get_gt mass h
    have h1 : keys.min' h ≤ keys.max' h := Finset.min'_le _ _ (Finset.max'_mem _ h)
    omega

lemma sum_range_shift (F : ℤ → ℝ) (o : ℤ) (n : ℕ) :
    ∑ i ∈ Finset.range (n + 1), F (o + (i : ℤ)) =
      ∑ k ∈ Finset.Icc o (o + (n : ℤ)), F k := by
  refine Finset.sum_nbij' (fun i : ℕ => o + (i : ℤ)) (fun k : ℤ => (k - o).toNat)
    ?_ ?_ ?_ ?_ ?_
  · intro i hi
    rw [Finset.mem_range] at hi
    simp only [Finset.mem_Icc]
    omega
  · intro k hk
    rw [Finset.mem_Icc] at hk
    simp only [Finset.mem_range]
    omega
  · intro i hi
    simp only
    omega
  · intro k hk
    rw [Finset.mem_Icc] at hk
    simp only
    omega
  · intro i hi
    rfl

/-- The specification's convolution formula at `key` collapses, for each
`key1`, to the single decomposition `key2 = key - key1`. -/
lemma spec_convolve_mass_eq (a b : PLD) (key : ℤ) :
    spec_convolve_mass a b key =
      ∑ c ∈ a.keys, a.mass c * dict_get b.keys b.mass (key - c) := by
  unfold spec_convolve_mass
  refine Finset.sum_congr rfl fun c _ => ?_
  have hf : b.keys.filter (fun k2 => c + k2 = key) =
      if key - c ∈ b.keys then {key - c} else ∅ := by
    ext k2
    by_cases hm : key - c ∈ b.keys
    · rw [if_pos hm]
      simp only [Finset.mem_filter, Finset.mem_singleton]
      constructor
      · rintro ⟨_, he⟩
        omega
      · intro he
        exact ⟨by rw [he]; exact hm, by omega⟩
    · rw [if_neg hm]
      simp only [Finset.mem_filter, Finset.not_mem_empty, iff_false, not_and]
      intro hk2 he
      exact hm (by rw [show key - c = k2 by omega]; exact hk2)
  rw [hf]
  unfold dict_get
  by_cases hm : key - c ∈ b.keys
  · rw [if_pos hm, if_pos hm, Finset.sum_singleton]
  · rw [if_neg hm, if_neg hm, Finset.sum_empty, mul_zero]

lemma spec_convolve_zero_of_lt {a b : PLD} (h1 : a.keys.Nonempty)
    (h2 : b.keys.Nonempty) {key : ℤ}
    (hk : key < a.keys.min' h1 + b.keys.min' h2) : spec_convolve_mass a b key = 0 := by
  rw [spec_convolve_mass_eq]
  refine Finset.sum_eq_zero fun c hc => ?_
  have hge : a.keys.min' h1 ≤ c := Finset.min'_le _ _ hc
  rw [dict_get_lt b.mass h2 (by omega), mul_zero]

lemma spec_convolve_zero_of_gt {a b : PLD} (h1 : a.keys.Nonempty)
    (h2 : b.keys.Nonempty) {key : ℤ}
    (hk : a.keys.max' h1 + b.keys.max' h2 < key) : spec_convolve_mass a b key = 0 := by
  rw [spec_convolve_mass_eq]
  refine Finset.sum_eq_zero fun c hc => ?_
  have hle : c ≤ a.keys.max' h1 := Finset.le_max' _ _ hc
  rw [dict_get_gt b.mass h2 (by omega), mul_zero]

/-- The dense linear convolution computes, at position `n`, exactly the
specification's dictionary-convolution value at key `min1 + min2 + n`. -/
lemma conv_entry (a b : PLD) (h1 : a.keys.Nonempty) (h2 : b.keys.Nonempty) (n : ℕ) :
    ∑ i ∈ Finset.range (n + 1),
        ((List.range (a.keys.max' h1 - a.keys.min' h1 + 1).toNat).map fun j : ℕ =>
          dict_get a.keys a.mass (a.keys.min' h1 + (j : ℤ))).getD i 0 *
        ((List.range (b.keys.max' h2 - b.keys.min' h2 + 1).toNat).map fun j : ℕ =>
          dict_get b.keys b.mass (b.keys.min' h2 + (j : ℤ))).getD (n - i) 0 =
      spec_convolve_mass a b (a.keys.min' h1 + b.keys.min' h2 + (n : ℤ)) := by
  rw [spec_convolve_mass_eq]
  have hstep : ∀ i ∈ Finset.range (n + 1),
      ((List.range (a.keys.max' h1 - a.keys.min' h1 + 1).toNat).map fun j : ℕ =>
          dict_get a.keys a.mass (a.keys.min' h1 + (j : ℤ))).getD i 0 *
        ((List.range (b.keys.max' h2 - b.keys.min' h2 + 1).toNat).map fun j : ℕ =>
          dict_get b.keys b.mass (b.keys.min' h2 + (j : ℤ))).getD (n - i) 0 =
      (fun k : ℤ => dict_get a.keys a.mass k * dict_get b.keys b.mass
        ((a.keys.min' h1 + b.keys.min' h2 + (n : ℤ)) - k)) (a.keys.min' h1 + (i : ℤ)) := by
    intro i hi
    rw [Finset.mem_range] at hi
    rw [dtl_getD, dtl_getD]
    simp only
    have harg : b.keys.min' h2 + ((n - i : ℕ) : ℤ) =
        (a.keys.min' h1 + b.keys.min' h2 + (n : ℤ)) - (a.keys.min' h1 + (i : ℤ)) := by
      omega
    rw [harg]
  rw [Finset.sum_congr rfl hstep,
    sum_range_shift (fun k : ℤ => dict_get a.keys a.mass k * dict_get b.keys b.mass
      ((a.keys.min' h1 + b.keys.min' h2 + (n : ℤ)) - k)) (a.keys.min' h1) n]
  have e1 : ∑ k ∈ Finset.Icc (a.keys.min' h1) (a.keys.min' h1 + (n : ℤ)),
        dict_get a.keys a.mass k * dict_get b.keys b.mass
          ((a.keys.min' h1 + b.keys.min' h2 + (n : ℤ)) - k) =
      ∑ k ∈ Finset.Icc (a.keys.min' h1) (a.keys.min' h1 + (n : ℤ)) ∪ a.keys,
        dict_get a.keys a.mass k * dict_get b.keys b.mass
          ((a.keys.min' h1 + b.keys.min' h2 + (n : ℤ)) - k) := by
    refine Finset.sum_subset Finset.subset_union_left fun c hc hnc => ?_
    have hck : c ∈ a.keys := by
      rcases Finset.mem_union.mp hc with h | h
      · exact absurd h hnc
      · exact h
    have hge : a.keys.min' h1 ≤ c := Finset.min'_le _ _ hck
    have hgt : a.keys.min' h1 + (n : ℤ) < c := by
      by_contra hle
      push_neg at hle
      exact hnc (Finset.mem_Icc.mpr ⟨hge, hle⟩)
    rw [dict_get_lt b.mass h2 (by omega), mul_zero]
  have e2 : ∑ k ∈ Finset.Icc (a.keys.min' h1) (a.keys.min' h1 + (n : ℤ)) ∪ a.keys,
        dict_get a.keys a.mass k * dict_get b.keys b.mass
          ((a.keys.min' h1 + b.keys.min' h2 + (n : ℤ)) - k) =
      ∑ c ∈ a.keys, dict_get a.keys a.mass c * dict_get b.keys b.mass
          ((a.keys.min' h1 + b.keys.min' h2 + (n : ℤ)) - c) :=
    (Finset.sum_subset Finset.subset_union_right fun c _ hc => by
      rw [dict_get_of_not_mem hc, zero_mul]).symm
  rw [e1, e2]
  exact Finset.sum_congr rfl fun c hc => by rw [dict_get, if_pos hc]

lemma list_convolve_length (u v : List ℝ) :
    (list_convolve u v).length = u.length + v.length - 1 := by
  simp [list_convolve]

/-- Uniform form of `conv_entry`: every position of the convolved dense list
(also the out-of-range ones, where both sides vanish) carries the
specification's convolution value. -/
lemma conv_getD_spec (a b : PLD) (h1 : a.keys.Nonempty) (h2 : b.keys.Nonempty) (n : ℕ) :
    (list_convolve
        ((List.range (a.keys.max' h1 - a.keys.min' h1 + 1).toNat).map fun j : ℕ =>
          dict_get a.keys a.mass (a.keys.min' h1 + (j : ℤ)))
        ((List.range (b.keys.max' h2 - b.keys.min' h2 + 1).toNat).map fun j : ℕ =>
          dict_get b.keys b.mass (b.keys.min' h2 + (j : ℤ)))).getD n 0 =
      spec_convolve_mass a b (a.keys.min' h1 + b.keys.min' h2 + (n : ℤ)) := by
  have ha : a.keys.min' h1 ≤ a.keys.max' h1 := Finset.min'_le _ _ (Finset.max'_mem _ h1)
  have hb : b.keys.min' h2 ≤ b.keys.max' h2 := Finset.min'_le _ _ (Finset.max'_mem _ h2)
  unfold list_convolve
  rw [getD_range_map]
  simp only [List.length_map, List.length_range]
  by_cases hn : n < (a.keys.max' h1 - a.keys.min' h1 + 1).toNat +
      (b.keys.max' h2 - b.keys.min' h2 + 1).toNat - 1
  · rw [if_pos hn]
    exact conv_entry a b h1 h2 n
  · rw [if_neg hn]
    symm
    apply spec_convolve_zero_of_gt h1 h2
    omega

/-- Characterization of `convolve_dictionary` on non-empty dictionaries:
it succeeds, its key set is exactly the set of keys with positive
specification-convolution value, and its stored masses agree with the
specification's convolution. -/
lemma convolve_dictionary_spec (a b : PLD) (h1 : a.keys.Nonempty) (h2 : b.keys.Nonempty) :
    ∃ ks m, convolve_dictionary a.keys a.mass b.keys b.mass = some (ks, m) ∧
      (∀ key, key ∈ ks ↔ 0 < spec_convolve_mass a b key) ∧
      (∀ key, key ∈ ks → m key = spec_convolve_mass a b key) ∧
      (∀ key, key ∉ ks → m key = 0) := by
  have ha : a.keys.min' h1 ≤ a.keys.max' h1 := Finset.min'_le _ _ (Finset.max'_mem _ h1)
  have hb : b.keys.min' h2 ≤ b.keys.max' h2 := Finset.min'_le _ _ (Finset.max'_mem _ h2)
  have hd1 : dictionary_to_list a.keys a.mass = some (a.keys.min' h1,
      (List.range (a.keys.max' h1 - a.keys.min' h1 + 1).toNat).map fun j : ℕ =>
        dict_get a.keys a.mass (a.keys.min' h1 + (j : ℤ))) := by
    unfold dictionary_to_list
    rw [dif_pos h1]
  have hd2 : dictionary_to_list b.keys b.mass = some (b.keys.min' h2,
      (List.range (b.keys.max' h2 - b.keys.min' h2 + 1).toNat).map fun j : ℕ =>
        dict_get b.keys b.mass (b.keys.min' h2 + (j : ℤ))) := by
    unfold dictionary_to_list
    rw [dif_pos h2]
  unfold convolve_dictionary
  rw [hd1, hd2]
  refine ⟨_, _, rfl, ?_, ?_, ?_⟩
  · intro key
    simp only [Finset.mem_image, Finset.mem_filter, Finset.mem_range]
    constructor
    · rintro ⟨j, ⟨hjlen, hjpos⟩, hjk⟩
      rw [conv_getD_spec a b h1 h2 j] at hjpos
      rw [← hjk]
      exact hjpos
    · intro hpos
      have hlow : a.keys.min' h1 + b.keys.min' h2 ≤ key := by
        by_contra hlt
        push_neg at hlt
        rw [spec_convolve_zero_of_lt h1 h2 hlt] at hpos
        exact lt_irrefl 0 hpos
      have hhigh : key ≤ a.keys.max' h1 + b.keys.max' h2 := by
        by_contra hgt
        push_neg at hgt
        rw [spec_convolve_zero_of_gt h1 h2 hgt] at hpos
        exact lt_irrefl 0 hpos
      refine ⟨(key - (a.keys.min' h1 + b.keys.min' h2)).toNat, ⟨?_, ?_⟩, ?_⟩
      · rw [list_convolve_length]
        simp only [List.length_map, List.length_range]
        omega
      · rw [conv_getD_spec a b h1 h2]
        convert hpos using 2
        omega
      · omega
  · intro key hkey
    show (if _ ∈ _ then _ else (0:ℝ)) = _
    rw [if_pos hkey]
    simp only [Finset.mem_image, Finset.mem_filter, Finset.mem_range] at hkey
    obtain ⟨j, ⟨hjlen, hjpos⟩, hjk⟩ := hkey
    rw [conv_getD_spec a b h1 h2]
    congr 1
    omega
  · intro key hkey
    show (if _ ∈ _ then _ else (0:ℝ)) = _
    rw [if_neg hkey]

/-! ## C5: composition of two PLDs -/

/-- C5 — counterexample to the claim as stated.  Two PLDs with empty
histograms and equal `value_discretization_interval` do not compose to the
(empty) dictionary convolution: `dictionary_to_list` fails on the empty
dictionary (`min({})` raises), so `compose` produces no PLD at all. -/
theorem C5_counterexample :
    empty_pld.value_discretization_interval = empty_pld.value_discretization_interval ∧
      compose empty_pld empty_pld = Except.error PLDError.empty_histogram := by
  refine ⟨rfl, ?_⟩
  unfold compose
  rw [if_neg (by simp)]
  unfold convolve_dictionary dictionary_to_list
  rw [dif_neg (by simp [empty_pld])]

/-- C5 — amended claim.  `compose` raises the configuration-mismatch error
exactly when the two discretization intervals differ; when they are equal
and both histograms are non-empty, the result's histogram is the dictionary
convolution of the two histograms (every key with positive convolution value,
with exactly that value, non-positive entries dropped), and the resulting
infinity mass is `a + b - a*b`. -/
theorem C5_compose_spec (a b : PLD) :
    (compose a b = .error .incompatible_interval ↔
      a.value_discretization_interval ≠ b.value_discretization_interval) ∧
    (a.value_discretization_interval = b.value_discretization_interval →
      a.keys.Nonempty → b.keys.Nonempty →
      ∃ c, compose a b = .ok c ∧
        (∀ key, key ∈ c.keys ↔ 0 < spec_convolve_mass a b key) ∧
        (∀ key, key ∈ c.keys → c.mass key = spec_convolve_mass a b key) ∧
        (∀ key, key ∉ c.keys → c.mass key = 0) ∧
        c.infinity_mass = a.infinity_mass + b.infinity_mass -
          a.infinity_mass * b.infinity_mass ∧
        c.value_discretization_interval = a.value_discretization_interval) := by
  constructor
  · by_cases hI : a.value_discretization_interval ≠ b.value_discretization_interval
    · unfold compose
      rw [if_pos hI]
      exact ⟨fun _ => hI, fun _ => rfl⟩
    · unfold compose
      rw [if_neg hI]
      rcases hcv : convolve_dictionary a.keys a.mass b.keys b.mass with _ | ⟨ks, m⟩
      · exact ⟨fun h => absurd h (by simp), fun h => absurd h hI⟩
      · exact ⟨fun h => absurd h (by simp), fun h => absurd h hI⟩
  · intro hIeq hne1 hne2
    obtain ⟨ks, m, hcv, hmem, hval, hzero⟩ := convolve_dictionary_spec a b hne1 hne2
    unfold compose
    rw [if_neg (not_not_intro hIeq), hcv]
    exact ⟨_, rfl, hmem, hval, hzero, rfl, rfl⟩

/-- Witness for C5 at `pld_example` composed with itself (equal intervals,
non-empty histograms). -/
theorem C5_compose_spec_witness :
    pld_example.keys.Nonempty ∧
      ∃ c, compose pld_example pld_example = .ok c ∧
        (∀ key, key ∈ c.keys ↔ 0 < spec_convolve_mass pld_example pld_example key) ∧
        (∀ key, key ∈ c.keys → c.mass key = spec_convolve_mass pld_example pld_example key) ∧
        (∀ key, key ∉ c.keys → c.mass key = 0) ∧
        c.infinity_mass = pld_example.infinity_mass + pld_example.infinity_mass -
          pld_example.infinity_mass * pld_example.infinity_mass ∧
        c.value_discretization_interval = pld_example.value_discretization_interval := by
  have hne : pld_example.keys.Nonempty := ⟨1, by simp [pld_example]⟩
  exact ⟨hne, (C5_compose_spec pld_example pld_example).2 rfl hne hne⟩

/-! ## C7: `self_compose(1)` -/

lemma list_to_dictionary_keys (l : List ℝ) (offset : ℤ) :
    (list_to_dictionary l offset).1 =
      ((Finset.range l.length).filter fun j => 0 < l.getD j 0).image
        (fun j : ℕ => offset + (j : ℤ)) := rfl

lemma list_to_dictionary_mass (l : List ℝ) (offset : ℤ) (k : ℤ) :
    (list_to_dictionary l offset).2 k =
      if k ∈ (list_to_dictionary l offset).1 then l.getD (k - offset).toNat 0 else 0 := rfl

lemma list_convolve_singleton_one (l : List ℝ) : list_convolve [1] l = l := by
  apply List.ext_getElem
  · simp [list_convolve]
  · intro n h1 h2
    have hn : n < 1 + l.length - 1 := by
      rw [list_convolve_length] at h1
      simpa using h1
    unfold list_convolve
    rw [List.getElem_map, List.getElem_range]
    rw [Finset.sum_eq_single 0]
    · rw [show ([ (1:ℝ) ].getD 0 0) = 1 from rfl, one_mul, Nat.sub_zero,
        List.getD_eq_getElem _ _ h2]
    · intro i _ hi
      rw [show ([ (1:ℝ) ].getD i 0) = 0 from by
        rw [List.getD_eq_default]
        · simpa using Nat.one_le_iff_ne_zero.mpr hi]
      rw [zero_mul]
    · intro h
      exact absurd (Finset.mem_range.mpr (Nat.succ_pos n)) h

lemma iter_convolve_one (l : List ℝ) : iter_convolve l 1 = l := by
  show list_convolve (iter_convolve l 0) l = l
  rw [show iter_convolve l 0 = [1] from rfl]
  exact list_convolve_singleton_one l

/-- C7 — amended claim.  For every PLD with a non-empty histogram all of
whose stored masses are strictly positive, `self_compose(1)` returns the
original histogram (same keys, same masses), the original `infinity_mass`
(`1 - (1 - m)^1 = m`) and the original discretization interval. -/
theorem C7_self_compose_one (pld : PLD) (h1 : pld.keys.Nonempty)
    (h2 : ∀ k ∈ pld.keys, 0 < pld.mass k) :
    ∃ q, self_compose pld 1 = some q ∧ q.keys = pld.keys ∧
      (∀ k ∈ pld.keys, q.mass k = pld.mass k) ∧
      q.infinity_mass = pld.infinity_mass ∧
      q.value_discretization_interval = pld.value_discretization_interval := by
  have hmm : pld.keys.min' h1 ≤ pld.keys.max' h1 :=
    Finset.min'_le _ _ (Finset.max'_mem _ h1)
  have hd : dictionary_to_list pld.keys pld.mass = some (pld.keys.min' h1,
      (List.range (pld.keys.max' h1 - pld.keys.min' h1 + 1).toNat).map fun j : ℕ =>
        dict_get pld.keys pld.mass (pld.keys.min' h1 + (j : ℤ))) := by
    unfold dictionary_to_list
    rw [dif_pos h1]
  have hsc : self_compose pld 1 = some
      { keys := (list_to_dictionary
          ((List.range (pld.keys.max' h1 - pld.keys.min' h1 + 1).toNat).map fun j : ℕ =>
            dict_get pld.keys pld.mass (pld.keys.min' h1 + (j : ℤ)))
          (pld.keys.min' h1)).1
        mass := (list_to_dictionary
          ((List.range (pld.keys.max' h1 - pld.keys.min' h1 + 1).toNat).map fun j : ℕ =>
            dict_get pld.keys pld.mass (pld.keys.min' h1 + (j : ℤ)))
          (pld.keys.min' h1)).2
        value_discretization_interval := pld.value_discretization_interval
        infinity_mass := 1 - (1 - pld.infinity_mass) ^ (1 : ℕ) } := by
    unfold self_compose self_convolve_dictionary
    rw [hd]
    simp only [iter_convolve_one, List.length_map, List.length_range, one_mul,
      Nat.sub_self, List.replicate_zero, List.append_nil, Nat.cast_one, mul_one]
  have hkeys : (list_to_dictionary
      ((List.range (pld.keys.max' h1 - pld.keys.min' h1 + 1).toNat).map fun j : ℕ =>
        dict_get pld.keys pld.mass (pld.keys.min' h1 + (j : ℤ)))
      (pld.keys.min' h1)).1 = pld.keys := by
    rw [list_to_dictionary_keys]
    ext k
    simp only [Finset.mem_image, Finset.mem_filter, Finset.mem_range, List.length_map,
      List.length_range]
    constructor
    · rintro ⟨j, ⟨hjlen, hjpos⟩, hjk⟩
      rw [dtl_getD] at hjpos
      by_contra hk
      rw [← hjk] at hk
      rw [dict_get_of_not_mem hk] at hjpos
      exact lt_irrefl 0 hjpos
    · intro hk
      have hlo : pld.keys.min' h1 ≤ k := Finset.min'_le _ _ hk
      have hhi : k ≤ pld.keys.max' h1 := Finset.le_max' _ _ hk
      refine ⟨(k - pld.keys.min' h1).toNat, ⟨by omega, ?_⟩, by omega⟩
      rw [dtl_getD]
      rw [show pld.keys.min' h1 + ((k - pld.keys.min' h1).toNat : ℤ) = k by omega]
      rw [dict_get, if_pos hk]
      exact h2 k hk
  refine ⟨_, hsc, hkeys, ?_, ?_, rfl⟩
  · intro k hk
    have hlo : pld.keys.min' h1 ≤ k := Finset.min'_le _ _ hk
    have hhi : k ≤ pld.keys.max' h1 := Finset.le_max' _ _ hk
    show (list_to_dictionary _ _).2 k = _
    rw [list_to_dictionary_mass, hkeys, if_pos hk]
    rw [dtl_getD]
    rw [show pld.keys.min' h1 + ((k - pld.keys.min' h1).toNat : ℤ) = k by omega]
    rw [dict_get, if_pos hk]
  · show 1 - (1 - pld.infinity_mass) ^ (1 : ℕ) = pld.infinity_mass
    rw [pow_one]
    ring

/-- Witness for C7 at the one-bucket `pld_example`. -/
theorem C7_self_compose_one_witness :
    pld_example.keys.Nonempty ∧ (∀ k ∈ pld_example.keys, 0 < pld_example.mass k) ∧
      ∃ q, self_compose pld_example 1 = some q ∧ q.keys = pld_example.keys ∧
        (∀ k ∈ pld_example.keys, q.mass k = pld_example.mass k) ∧
        q.infinity_mass = pld_example.infinity_mass ∧
        q.value_discretization_interval = pld_example.value_discretization_interval := by
  have hne : pld_example.keys.Nonempty := ⟨1, by simp [pld_example]⟩
  have hpos : ∀ k ∈ pld_example.keys, 0 < pld_example.mass k := by
    intro k hk
    simp only [pld_example] at hk ⊢
    rw [Finset.mem_singleton] at hk
    rw [if_pos hk]
    norm_num
  exact ⟨hne, hpos, C7_self_compose_one pld_example hne hpos⟩

lemma rr_example_nonempty : rr_example.keys.Nonempty :=
  ⟨2, by simp [rr_example]⟩

lemma rr_example_min : rr_example.keys.min' rr_example_nonempty = -1 := by
  apply le_antisymm
  · exact Finset.min'_le _ _ (by simp [rr_example])
  · apply Finset.le_min'
    intro y hy
    simp only [rr_example, Finset.mem_insert, Finset.mem_singleton] at hy
    rcases hy with h | h | h <;> omega

lemma rr_example_max : rr_example.keys.max' rr_example_nonempty = 2 := by
  apply le_antisymm
  · apply Finset.max'_le
    intro y hy
    simp only [rr_example, Finset.mem_insert, Finset.mem_singleton] at hy
    rcases hy with h | h | h <;> omega
  · exact Finset.le_max' _ _ (by simp [rr_example])

lemma rr_example_dense : dictionary_to_list rr_example.keys rr_example.mass =
    some (-1, [1/4, 0, 0, 3/4]) := by
  unfold dictionary_to_list
  rw [dif_pos rr_example_nonempty]
  rw [rr_example_min, rr_example_max]
  norm_num
  show List.map _ (List.range 4) = _
  rw [show List.range 4 = [0, 1, 2, 3] from rfl]
  simp only [List.map_cons, List.map_nil]
  unfold dict_get
  norm_num [rr_example]

/-- C7 — counterexample to the claim as stated.  The PLD produced by
`from_randomized_response(1/2, 2, True, 1)` has the non-empty histogram
`{2: 3/4, -1: 1/4, 0: 0}`, but `self_compose(1)` drops the zero-mass bucket
`0` (`list_to_dictionary` keeps only positive entries), so the resulting
histogram has the different key set `{-1, 2}`. -/
theorem C7_counterexample :
    from_randomized_response (1/2) 2 true 1 = Except.ok rr_example ∧
    (0 : ℤ) ∈ rr_example.keys ∧
    self_compose rr_example 1 = some rr_self_example ∧
    rr_self_example.keys ≠ rr_example.keys := by
  have hkeys : (list_to_dictionary [1/4, 0, 0, 3/4] (-1)).1 = ({-1, 2} : Finset ℤ) := by
    rw [list_to_dictionary_keys]
    rw [show ([(1:ℝ)/4, 0, 0, 3/4].length) = 4 from rfl,
      show Finset.range 4 = ({0, 1, 2, 3} : Finset ℕ) from rfl]
    rw [show ({0, 1, 2, 3} : Finset ℕ) = insert 0 (insert 1 (insert 2 ({3} : Finset ℕ)))
      from rfl]
    rw [Finset.filter_insert, if_pos (by norm_num : (0:ℝ) < [(1:ℝ)/4, 0, 0, 3/4].getD 0 0)]
    rw [Finset.filter_insert, if_neg (by norm_num : ¬ ((0:ℝ) < [(1:ℝ)/4, 0, 0, 3/4].getD 1 0))]
    rw [Finset.filter_insert, if_neg (by norm_num : ¬ ((0:ℝ) < [(1:ℝ)/4, 0, 0, 3/4].getD 2 0))]
    rw [Finset.filter_singleton, if_pos (by norm_num : (0:ℝ) < [(1:ℝ)/4, 0, 0, 3/4].getD 3 0)]
    rw [Finset.image_insert, Finset.image_singleton]
    rfl
  have hmass : (list_to_dictionary [1/4, 0, 0, 3/4] (-1)).2 =
      (fun k => if k = 2 then (3:ℝ)/4 else if k = -1 then 1/4 else 0) := by
    funext k
    rw [list_to_dictionary_mass, hkeys]
    by_cases hk2 : k = 2
    · subst hk2
      rw [if_pos (by norm_num), show ((2:ℤ) - (-1)).toNat = 3 from rfl]
      norm_num
    · by_cases hkm : k = -1
      · subst hkm
        rw [if_pos (by norm_num)]
        norm_num
      · rw [if_neg (by simp [hk2, hkm]), if_neg hk2, if_neg hkm]
  have hsc : self_compose rr_example 1 = some rr_self_example := by
    unfold self_compose self_convolve_dictionary
    rw [rr_example_dense]
    simp only [iter_convolve_one, List.length_cons, List.length_nil, one_mul,
      Nat.sub_self, List.replicate_zero, List.append_nil, Nat.cast_one, mul_one]
    congr 1
    unfold rr_self_example
    rw [PLD.mk.injEq]
    refine ⟨hkeys, hmass, rfl, ?_⟩
    norm_num [rr_example]
  exact ⟨rr_eval, by simp [rr_example], hsc, by
    intro h
    have : (0:ℤ) ∈ rr_self_example.keys := h ▸ (by simp [rr_example])
    simp [rr_self_example] at this⟩

/-! ## C2: the storage invariant of the factories -/

lemma list_to_dictionary_mass_nonneg (l : List ℝ) (offset : ℤ) (k : ℤ) :
    0 ≤ (list_to_dictionary l offset).2 k := by
  rw [list_to_dictionary_mass]
  by_cases hk : k ∈ (list_to_dictionary l offset).1
  · rw [if_pos hk]
    rw [list_to_dictionary_keys] at hk
    simp only [Finset.mem_image, Finset.mem_filter, Finset.mem_range] at hk
    obtain ⟨j, ⟨hjlen, hjpos⟩, hjk⟩ := hk
    rw [show (k - offset).toNat = j by omega]
    exact hjpos.le
  · rw [if_neg hk]

lemma convolve_dictionary_mass_nonneg {k1 : Finset ℤ} {m1 : ℤ → ℝ}
    {k2 : Finset ℤ} {m2 : ℤ → ℝ} {ks : Finset ℤ} {m : ℤ → ℝ}
    (h : convolve_dictionary k1 m1 k2 m2 = some (ks, m)) : ∀ k, 0 ≤ m k := by
  unfold convolve_dictionary at h
  rcases hd1 : dictionary_to_list k1 m1 with _ | ⟨o1, l1⟩ <;> rw [hd1] at h
  · cases h
  · rcases hd2 : dictionary_to_list k2 m2 with _ | ⟨o2, l2⟩ <;> rw [hd2] at h
    · cases h
    · have h2 := Option.some.inj h
      intro k
      have hm : m = (list_to_dictionary (list_convolve l1 l2) (o1 + o2)).2 :=
        (congrArg Prod.snd h2).symm
      rw [hm]
      exact list_to_dictionary_mass_nonneg _ _ _

lemma self_convolve_dictionary_mass_nonneg {keys : Finset ℤ} {mass : ℤ → ℝ}
    {n : ℕ} {ks : Finset ℤ} {m : ℤ → ℝ}
    (h : self_convolve_dictionary keys mass n = some (ks, m)) : ∀ k, 0 ≤ m k := by
  unfold self_convolve_dictionary at h
  rcases hd : dictionary_to_list keys mass with _ | ⟨o, l⟩ <;> rw [hd] at h
  · cases h
  · have h2 := Option.some.inj h
    intro k
    have hm : m = (list_to_dictionary
        (iter_convolve l n ++ List.replicate (n * l.length - (iter_convolve l n).length) 0)
        (o * (n : ℤ))).2 :=
      (congrArg Prod.snd h2).symm
    rw [hm]
    exact list_to_dictionary_mass_nonneg _ _ _

lemma continuous_loop_mass_nonneg (privacy_loss inv cdf : ℝ → ℝ) (ut : ℝ)
    (pess : Bool) (I : ℝ) (hmono : Monotone cdf) (hI : 0 ≤ I)
    (hub : ∀ L x, L ≤ privacy_loss x → x < ut → x ≤ inv L)
    (hattain : ∀ L, inv L < ut → L ≤ privacy_loss (inv L)) :
    ∀ (fuel : ℕ) (lower_x : ℝ) (rdv : ℤ) (ks : Finset ℤ) (m : ℤ → ℝ),
      (∀ k, 0 ≤ m k) →
      (lower_x < ut → I * (rdv : ℝ) ≤ privacy_loss lower_x) →
      ∀ k, 0 ≤ (continuous_construction_loop inv cdf ut pess I
        fuel lower_x rdv ks m).2 k := by
  intro fuel
  induction fuel with
  | zero => intro lower_x rdv ks m hm _ k; exact hm k
  | succ fuel ih =>
    intro lower_x rdv ks m hm hinv k
    rw [continuous_construction_loop]
    by_cases hg : lower_x < ut
    · rw [if_pos hg]
      have hle : lower_x ≤ min ut (inv (I * (rdv : ℝ))) :=
        le_min hg.le (hub (I * (rdv : ℝ)) lower_x (hinv hg) hg)
      apply ih
      · intro k'
        by_cases hk' : k' = round_fn pess ((rdv : ℝ) + 1/2)
        · simp only [if_pos hk']
          have h1 := hmono hle
          have h2 := hm k'
          linarith
        · simp only [if_neg hk']
          exact hm k'
      · intro hg'
        have hlt : inv (I * (rdv : ℝ)) < ut := by
          by_contra hge
          push_neg at hge
          rw [min_eq_left hge] at hg'
          exact lt_irrefl _ hg'
        rw [min_eq_right hlt.le]
        have h1 := hattain (I * (rdv : ℝ)) hlt
        have h2 : I * ((rdv - 1 : ℤ) : ℝ) ≤ I * (rdv : ℝ) := by
          apply mul_le_mul_of_nonneg_left _ hI
          push_cast
          linarith
        linarith
    · rw [if_neg hg]
      exact hm k

/-- C2 — amended claim.  The strict-positivity invariant fails (see the
counterexample), but the non-strict version holds: every factory stores only
non-negative masses — no key ever carries strictly negative mass.  For the
additive-noise constructors the mechanism collaborators are the abstract
parameters: for the discrete-noise branch the noise CDF is assumed monotone
and non-negative (§6 of the spec); for the continuous-noise branch the noise
CDF is assumed monotone, the finite tail masses non-negative, and
`inverse_privacy_loss` is assumed to satisfy its §4.3 contract — it bounds
the region where the privacy loss stays at or above the given level
(`hub`), and where it returns a value inside the truncation range the
privacy loss there attains the level (`hattain`) — with positive
granularity. -/
theorem C2_nonnegative_mass :
    (∀ (α : Type) [DecidableEq α] (lower upper : LogPmf α) (pess : Bool) (I : ℝ)
        (bound : Option ℝ) (k : ℤ),
      0 ≤ (from_two_probability_mass_functions lower upper pess I bound).mass k) ∧
    (∀ (p : ℝ) (nb : ℤ) (pess : Bool) (I : ℝ) (pld : PLD),
      from_randomized_response p nb pess I = .ok pld → ∀ k, 0 ≤ pld.mass k) ∧
    (∀ (ε δ I : ℝ), δ ≤ 1 → ∀ k, 0 ≤ (from_privacy_parameters ε δ I).mass k) ∧
    (∀ (a b c : PLD), compose a b = .ok c → ∀ k, 0 ≤ c.mass k) ∧
    (∀ (pld q : PLD) (n : ℕ), self_compose pld n = some q → ∀ k, 0 ≤ q.mass k) ∧
    (∀ (parameter : ℝ) (s : ℤ) (cdf : ℤ → ℝ) (pess : Bool) (I : ℝ),
      Monotone cdf → (∀ x, 0 ≤ cdf x) → ∀ k,
        0 ≤ (discrete_laplace_pld parameter s cdf pess I).mass k) ∧
    (∀ (privacy_loss inverse_pl noise_cdf : ℝ → ℝ) (tl ut : ℝ)
        (tail_pmf : List (ℝ × ℝ)) (tinf : ℝ) (pess : Bool) (I : ℝ) (fuel : ℕ),
      Monotone noise_cdf → (∀ e ∈ tail_pmf, 0 ≤ e.2) →
      (∀ L x, L ≤ privacy_loss x → x < ut → x ≤ inverse_pl L) →
      (∀ L, inverse_pl L < ut → L ≤ privacy_loss (inverse_pl L)) →
      0 < I → ∀ k,
        0 ≤ (additive_continuous_pld privacy_loss inverse_pl noise_cdf
          tl ut tail_pmf tinf pess I fuel).mass k) := by
  refine ⟨?_, ?_, ?_, ?_, ?_, ?_, ?_⟩
  · intro α _ lower upper pess I bound k
    refine Finset.sum_nonneg fun v _ => Finset.sum_nonneg fun o _ => ?_
    exact exp_or_zero_nonneg _
  · intro p nb pess I pld h k
    unfold from_randomized_response at h
    by_cases h1 : p ≤ 0 ∨ 1 ≤ p
    · rw [if_pos h1] at h
      cases h
    · rw [if_neg h1] at h
      by_cases h2 : nb ≤ 1
      · rw [if_pos h2] at h
        cases h
      · rw [if_neg h2] at h
        injection h with h'
        subst h'
        push_neg at h1 h2
        have hnb : (2 : ℝ) ≤ (nb : ℝ) := by exact_mod_cast h2
        have hpne : 0 ≤ p / (nb : ℝ) := div_nonneg h1.1.le (by linarith)
        refine add_nonneg (add_nonneg ?_ ?_) ?_
        · split
          · exact add_nonneg (by linarith [h1.2]) hpne
          · exact le_refl 0
        · split
          · exact hpne
          · exact le_refl 0
        · split
          · exact mul_nonneg hpne (by linarith)
          · exact le_refl 0
  · intro ε δ I hδ k
    show 0 ≤ if k = ⌈-ε / I⌉ then (1 - δ) / (1 + Real.exp ε)
      else if k = ⌈ε / I⌉ then (1 - δ) / (1 + Real.exp (-ε)) else 0
    split
    · exact div_nonneg (by linarith) (by positivity)
    · split
      · exact div_nonneg (by linarith) (by positivity)
      · exact le_refl 0
  · intro a b c h k
    unfold compose at h
    by_cases hI : a.value_discretization_interval ≠ b.value_discretization_interval
    · rw [if_pos hI] at h
      cases h
    · rw [if_neg hI] at h
      rcases hcv : convolve_dictionary a.keys a.mass b.keys b.mass with _ | ⟨ks, m⟩ <;>
        rw [hcv] at h
      · cases h
      · injection h with h'
        subst h'
        exact convolve_dictionary_mass_nonneg hcv k
  · intro pld q n h k
    unfold self_compose at h
    rcases hcv : self_convolve_dictionary pld.keys pld.mass n with _ | ⟨ks, m⟩ <;>
      rw [hcv] at h
    · cases h
    · injection h with h'
      subst h'
      exact self_convolve_dictionary_mass_nonneg hcv k
  · intro parameter s cdf pess I hmono hnn k
    show 0 ≤ (if k = round_fn pess ((s : ℝ) * parameter / I) then cdf 0 else 0) +
      (if k = round_fn pess (-(s : ℝ) * parameter / I) then cdf (-s) else 0) +
      ∑ x ∈ (Finset.Icc 1 (s - 1)).filter
          (fun x => round_fn pess (discrete_laplace_privacy_loss parameter s x) = k),
        (cdf x - cdf (x - 1))
    refine add_nonneg (add_nonneg ?_ ?_) ?_
    · split
      · exact hnn 0
      · exact le_refl 0
    · split
      · exact hnn (-s)
      · exact le_refl 0
    · refine Finset.sum_nonneg fun x _ => ?_
      have := hmono (show x - 1 ≤ x by omega)
      linarith
  · intro pl invf cdf tl ut tail_pmf tinf pess I fuel hmono htail hub hattain hI k
    show 0 ≤ (continuous_construction_loop invf cdf ut pess I fuel tl
        ⌊pl tl / I⌋
        (tail_pmf.map fun e => round_fn pess (e.1 / I)).toFinset
        (fun k => ((tail_pmf.filter fun e =>
          round_fn pess (e.1 / I) = k).map Prod.snd).sum)).2 k
    refine continuous_loop_mass_nonneg pl invf cdf ut pess I hmono hI.le hub hattain
      fuel tl ⌊pl tl / I⌋ _ _ ?_ ?_ k
    · intro k'
      show 0 ≤ ((tail_pmf.filter fun e =>
        round_fn pess (e.1 / I) = k').map Prod.snd).sum
      refine List.sum_nonneg ?_
      intro x hx
      simp only [List.mem_map, List.mem_filter] at hx
      obtain ⟨e, ⟨he, _⟩, hxe⟩ := hx
      rw [← hxe]
      exact htail e he
    · intro _
      have h1 : ((⌊pl tl / I⌋ : ℤ) : ℝ) ≤ pl tl / I := Int.floor_le _
      have h2 : I * ((⌊pl tl / I⌋ : ℤ) : ℝ) ≤ I * (pl tl / I) :=
        mul_le_mul_of_nonneg_left h1 hI.le
      have h3 : I * (pl tl / I) = pl tl := by
        rw [mul_comm, div_mul_cancel₀ _ (ne_of_gt hI)]
      linarith

/-- Witness for C2 (amended): `from_privacy_parameters(0, 1/2, 1)` stores
only non-negative masses. -/
theorem C2_nonnegative_mass_witness :
    ((1:ℝ)/2 ≤ 1) ∧ ∀ k, 0 ≤ (from_privacy_parameters 0 (1/2) 1).mass k :=
  ⟨by norm_num, C2_nonnegative_mass.2.2.1 0 (1/2) 1 (by norm_num)⟩

/-! ## C4: correctness of `get_epsilon_for_delta` -/

lemma ld_ge (I : ℝ) (mass : ℤ → ℝ) (l : List ℤ) (mu ml ε : ℝ)
    (h : ∀ i ∈ l, 0 ≤ mass i) :
    mu - Real.exp ε * ml ≤ loop_divergence I mass l mu ml ε := by
  unfold loop_divergence
  have h0 : 0 ≤ (l.map fun i : ℤ =>
      if ε < (i:ℝ) * I then (1 - Real.exp (ε - (i:ℝ) * I)) * mass i else 0).sum :=
    map_sum_nonneg fun i hi => hockey_term_nonneg (h i hi)
  linarith

lemma ld_high (I : ℝ) (mass : ℤ → ℝ) (l : List ℤ) (mu ml ε : ℝ)
    (h : ∀ i ∈ l, (i:ℝ) * I ≤ ε) :
    loop_divergence I mass l mu ml ε = mu - Real.exp ε * ml := by
  unfold loop_divergence
  rw [map_sum_zero fun i hi => if_neg (not_lt.mpr (h i hi))]
  ring

lemma ld_anti (I : ℝ) (mass : ℤ → ℝ) (l : List ℤ) (mu ml : ℝ)
    (h : ∀ i ∈ l, 0 ≤ mass i) (hml : 0 ≤ ml) {ε₁ ε₂ : ℝ} (h12 : ε₁ ≤ ε₂) :
    loop_divergence I mass l mu ml ε₂ ≤ loop_divergence I mass l mu ml ε₁ := by
  unfold loop_divergence
  have hexp : Real.exp ε₁ * ml ≤ Real.exp ε₂ * ml :=
    mul_le_mul_of_nonneg_right (Real.exp_le_exp.mpr h12) hml
  have hsum : (l.map fun i : ℤ =>
      if ε₂ < (i:ℝ) * I then (1 - Real.exp (ε₂ - (i:ℝ) * I)) * mass i else 0).sum ≤
      (l.map fun i : ℤ =>
      if ε₁ < (i:ℝ) * I then (1 - Real.exp (ε₁ - (i:ℝ) * I)) * mass i else 0).sum :=
    map_sum_le fun i hi => hockey_term_anti (h i hi) h12
  linarith

lemma ld_cons_eq (I : ℝ) (mass : ℤ → ℝ) (i : ℤ) (l : List ℤ) (mu ml ε : ℝ)
    (hεv : ε ≤ (i:ℝ) * I) :
    loop_divergence I mass (i :: l) mu ml ε =
      loop_divergence I mass l (mu + mass i)
        (ml + Real.exp (-((i:ℝ) * I)) * mass i) ε := by
  unfold loop_divergence
  rw [List.map_cons, List.sum_cons]
  rcases lt_or_eq_of_le hεv with hlt | heq
  · rw [if_pos hlt]
    have hx : Real.exp ε * Real.exp (-((i:ℝ) * I)) = Real.exp (ε - (i:ℝ) * I) := by
      rw [← Real.exp_add, ← sub_eq_add_neg]
    linear_combination (mass i) * hx
  · rw [if_neg (by rw [heq]; exact lt_irrefl _)]
    have hx : Real.exp ε * Real.exp (-((i:ℝ) * I)) = 1 := by
      rw [← Real.exp_add, heq]
      simp
    linear_combination (mass i) * hx

lemma ld_cons_le (I : ℝ) (mass : ℤ → ℝ) (i : ℤ) (l : List ℤ) (mu ml ε : ℝ)
    (hm : 0 ≤ mass i) (hεv : (i:ℝ) * I ≤ ε) :
    loop_divergence I mass l (mu + mass i)
        (ml + Real.exp (-((i:ℝ) * I)) * mass i) ε ≤
      loop_divergence I mass (i :: l) mu ml ε := by
  unfold loop_divergence
  rw [List.map_cons, List.sum_cons, if_neg (not_lt.mpr hεv)]
  have hx : Real.exp ε * Real.exp (-((i:ℝ) * I)) = Real.exp (ε - (i:ℝ) * I) := by
    rw [← Real.exp_add, ← sub_eq_add_neg]
  have h1 : 1 ≤ Real.exp (ε - (i:ℝ) * I) := by
    have := Real.add_one_le_exp (ε - (i:ℝ) * I)
    linarith
  have key : mu + mass i - Real.exp ε * (ml + Real.exp (-((i:ℝ) * I)) * mass i) =
      mu - Real.exp ε * ml + (1 - Real.exp (ε - (i:ℝ) * I)) * mass i := by
    linear_combination (-(mass i)) * hx
  have h2 : (1 - Real.exp (ε - (i:ℝ) * I)) * mass i ≤ 0 :=
    mul_nonpos_of_nonpos_of_nonneg (by linarith) hm
  linarith [key, h2]

/-- Correctness of the `get_epsilon_for_delta` loop: starting from a state
`(mass_upper, mass_lower)` whose pending keys are strictly descending and
carry positive mass, the loop returns the smallest non-negative `ε` whose
state divergence is at most `delta`.  The early-exit branch and the
`mass_lower == 0` special case (unreachable in exact arithmetic with
positive masses) are part of the embedded loop. -/
lemma eps_loop_correct (delta I : ℝ) (hI : 0 < I) (mass : ℤ → ℝ) :
    ∀ (l : List ℤ) (mu ml : ℝ),
      (∀ i ∈ l, 0 < mass i) →
      List.Pairwise (fun a b : ℤ => b < a) l →
      0 ≤ ml → (ml = 0 → mu ≤ delta) →
      ∃ R, eps_loop delta I mass l mu ml = some R ∧ 0 ≤ R ∧
        loop_divergence I mass l mu ml R ≤ delta ∧
        ∀ ε, 0 ≤ ε → ε < R → delta < loop_divergence I mass l mu ml ε := by
  intro l
  induction l with
  | nil =>
    intro mu ml hpos hsort hml hml0
    by_cases hfin : mu ≤ ml + delta
    · refine ⟨0, ?_, le_refl 0, ?_, ?_⟩
      · show some (eps_final delta mu ml) = _
        rw [eps_final, if_pos hfin]
      · rw [ld_high I mass [] mu ml 0 (by simp), Real.exp_zero, one_mul]
        linarith
      · intro ε hε hlt
        exact absurd hlt (not_lt.mpr hε)
    · push_neg at hfin
      have hmlpos : 0 < ml := by
        rcases eq_or_lt_of_le hml with he | hl
        · exfalso
          have := hml0 he.symm
          linarith
        · exact hl
      have hratio : 1 < (mu - delta) / ml := (one_lt_div hmlpos).mpr (by linarith)
      have hL0 : 0 < Real.log ((mu - delta) / ml) := Real.log_pos hratio
      have hexpL : Real.exp (Real.log ((mu - delta) / ml)) * ml = mu - delta := by
        rw [Real.exp_log (lt_trans zero_lt_one hratio), div_mul_cancel₀ _ (ne_of_gt hmlpos)]
      refine ⟨Real.log ((mu - delta) / ml), ?_, hL0.le, ?_, ?_⟩
      · show some (eps_final delta mu ml) = _
        rw [eps_final, if_neg (not_le.mpr (by linarith))]
      · rw [ld_high I mass [] mu ml _ (by simp)]
        linarith
      · intro ε hε hlt
        rw [ld_high I mass [] mu ml ε (by simp)]
        have hee := Real.exp_lt_exp.mpr hlt
        nlinarith
  | cons i l ih =>
    intro mu ml hpos hsort hml hml0
    have hpos_tail : ∀ j ∈ l, 0 < mass j := fun j hj => hpos j (List.mem_cons_of_mem _ hj)
    have hpos_i : 0 < mass i := hpos i (List.mem_cons_self _ _)
    have hsort_tail := (List.pairwise_cons.mp hsort).2
    have hlt_i : ∀ j ∈ l, (j:ℝ) * I < (i:ℝ) * I := by
      intro j hj
      have hj' : j < i := (List.pairwise_cons.mp hsort).1 j hj
      exact mul_lt_mul_of_pos_right (by exact_mod_cast hj') hI
    by_cases hbr : delta < mu ∧ 0 < ml ∧
        (i:ℝ) * I ≤ Real.log ((mu - delta) / ml)
    · obtain ⟨hmu, hmlp, hvL⟩ := hbr
      have hratio0 : 0 < (mu - delta) / ml := div_pos (by linarith) hmlp
      have hexpL : Real.exp (Real.log ((mu - delta) / ml)) * ml = mu - delta := by
        rw [Real.exp_log hratio0, div_mul_cancel₀ _ (ne_of_gt hmlp)]
      have hGL : loop_divergence I mass (i :: l) mu ml
          (Real.log ((mu - delta) / ml)) = delta := by
        rw [ld_high]
        · linarith
        · intro j hj
          rcases List.mem_cons.mp hj with he | hmem
          · rw [he]
            exact hvL
          · exact le_of_lt (lt_of_lt_of_le (hlt_i j hmem) hvL)
      have hloop : eps_loop delta I mass (i :: l) mu ml =
          some (eps_final delta mu ml) := by
        rw [eps_loop, if_pos ⟨hmu, hmlp, hvL⟩]
      by_cases hfin : mu ≤ ml + delta
      · have hL0 : Real.log ((mu - delta) / ml) ≤ 0 :=
          Real.log_nonpos hratio0.le ((div_le_one hmlp).mpr (by linarith))
        refine ⟨0, by rw [hloop, eps_final, if_pos hfin], le_refl 0, ?_, ?_⟩
        · calc loop_divergence I mass (i :: l) mu ml 0 ≤
              loop_divergence I mass (i :: l) mu ml (Real.log ((mu - delta) / ml)) :=
                ld_anti I mass (i :: l) mu ml (fun j hj => (hpos j hj).le) hml hL0
            _ = delta := hGL
        · intro ε hε hlt
          exact absurd hlt (not_lt.mpr hε)
      · push_neg at hfin
        refine ⟨Real.log ((mu - delta) / ml),
          by rw [hloop, eps_final, if_neg (not_le.mpr hfin)], ?_, le_of_eq hGL, ?_⟩
        · exact (Real.log_pos ((one_lt_div hmlp).mpr (by linarith))).le
        · intro ε hε hlt
          have hge := ld_ge I mass (i :: l) mu ml ε (fun j hj => (hpos j hj).le)
          have hee := Real.exp_lt_exp.mpr hlt
          nlinarith
    · have hml' : 0 < ml + Real.exp (-((i:ℝ) * I)) * mass i :=
        add_pos_of_nonneg_of_pos hml (mul_pos (Real.exp_pos _) hpos_i)
      have hloop : eps_loop delta I mass (i :: l) mu ml =
          eps_loop delta I mass l (mu + mass i)
            (ml + Real.exp (-((i:ℝ) * I)) * mass i) := by
        rw [eps_loop, if_neg hbr, if_neg]
        rintro ⟨_, hzero⟩
        exact absurd hzero (ne_of_gt hml')
      obtain ⟨R, hR, hR0, hGR, hmin⟩ := ih (mu + mass i)
        (ml + Real.exp (-((i:ℝ) * I)) * mass i) hpos_tail hsort_tail hml'.le
        (fun h => absurd h (ne_of_gt hml'))
      have hGv : loop_divergence I mass (i :: l) mu ml ((i:ℝ) * I) ≤ delta := by
        rw [ld_high I mass (i :: l) mu ml ((i:ℝ) * I)]
        · by_cases hA : delta < mu
          · by_cases hB : 0 < ml
            · have hC : Real.log ((mu - delta) / ml) < (i:ℝ) * I := by
                by_contra hC
                push_neg at hC
                exact hbr ⟨hA, hB, hC⟩
              have hratio0 : 0 < (mu - delta) / ml := div_pos (by linarith) hB
              have hexpL : Real.exp (Real.log ((mu - delta) / ml)) * ml = mu - delta := by
                rw [Real.exp_log hratio0, div_mul_cancel₀ _ (ne_of_gt hB)]
              have hee := Real.exp_lt_exp.mpr hC
              nlinarith
            · have hze : ml = 0 := le_antisymm (not_lt.mp hB) hml
              have := hml0 hze
              linarith
          · push_neg at hA
            nlinarith [Real.exp_pos ((i:ℝ) * I), hml]
        · intro j hj
          rcases List.mem_cons.mp hj with he | hmem
          · rw [he]
          · exact (hlt_i j hmem).le
      refine ⟨R, hloop.trans hR, hR0, ?_, ?_⟩
      · by_cases hRv : R ≤ (i:ℝ) * I
        · rw [ld_cons_eq I mass i l mu ml R hRv]
          exact hGR
        · calc loop_divergence I mass (i :: l) mu ml R ≤
              loop_divergence I mass (i :: l) mu ml ((i:ℝ) * I) :=
                ld_anti I mass (i :: l) mu ml (fun j hj => (hpos j hj).le) hml
                  (le_of_not_le hRv)
            _ ≤ delta := hGv
      · intro ε hε hlt
        by_cases hεv : ε ≤ (i:ℝ) * I
        · rw [ld_cons_eq I mass i l mu ml ε hεv]
          exact hmin ε hε hlt
        · push_neg at hεv
          by_cases hv0 : 0 ≤ (i:ℝ) * I
          · exfalso
            have h1 := hmin ((i:ℝ) * I) hv0 (lt_trans hεv hlt)
            rw [← ld_cons_eq I mass i l mu ml ((i:ℝ) * I) (le_refl _)] at h1
            linarith
          · exfalso
            push_neg at hv0
            have hR0' : 0 < R := lt_of_le_of_lt hε hlt
            have h1 := hmin 0 (le_refl 0) hR0'
            have h2 := ld_cons_le I mass i l mu ml 0 hpos_i.le (by linarith)
            have h3 := ld_anti I mass (i :: l) mu ml (fun j hj => (hpos j hj).le)
              hml hv0.le
            linarith

lemma sorted_keys_desc_mem (pld : PLD) (i : ℤ) :
    i ∈ sorted_keys_desc pld ↔ i ∈ pld.keys := by
  unfold sorted_keys_desc
  rw [List.mem_reverse, Finset.mem_sort]

lemma sorted_keys_desc_pairwise (pld : PLD) :
    List.Pairwise (fun a b : ℤ => b < a) (sorted_keys_desc pld) := by
  unfold sorted_keys_desc
  rw [List.pairwise_reverse]
  exact Finset.sort_sorted_lt pld.keys

/-- With all stored masses positive, `get_delta_for_epsilon` coincides with
the divergence function of the loop's initial state. -/
lemma delta_eq_loop (pld : PLD) (hpos : ∀ i ∈ pld.keys, 0 < pld.mass i) (ε : ℝ) :
    get_delta_for_epsilon pld ε =
      loop_divergence pld.value_discretization_interval pld.mass
        (sorted_keys_desc pld) pld.infinity_mass 0 ε := by
  unfold get_delta_for_epsilon loop_divergence
  rw [mul_zero, sub_zero]
  congr 1
  have h1 : ((sorted_keys_desc pld).map fun i : ℤ =>
      if ε < (i:ℝ) * pld.value_discretization_interval then
        (1 - Real.exp (ε - (i:ℝ) * pld.value_discretization_interval)) * pld.mass i
      else 0).sum =
      ∑ i ∈ pld.keys, (fun i : ℤ =>
      if ε < (i:ℝ) * pld.value_discretization_interval then
        (1 - Real.exp (ε - (i:ℝ) * pld.value_discretization_interval)) * pld.mass i
      else 0) i := by
    have hperm : List.Perm (sorted_keys_desc pld) pld.keys.toList := by
      unfold sorted_keys_desc
      exact (List.reverse_perm _).trans (Finset.sort_perm_toList _ pld.keys)
    rw [List.Perm.sum_eq (List.Perm.map _ hperm)]
    exact Finset.sum_to_list _ _
  rw [h1]
  exact Finset.sum_congr rfl fun i hi =>
    if_congr (and_iff_left (hpos i hi)) rfl rfl

/-- C4 — counterexample.  The factories can produce PLDs with zero-mass
buckets, and on those the `mass_lower == 0` special case does change the
returned value: `from_privacy_parameters(epsilon=1, delta=1, interval=1)`
stores histogram `{1: 0, -1: 0}` with `infinity_mass = 1`, and
`get_epsilon_for_delta(1)` folds key `1`, hits the special case
(`mass_upper = 1 >= delta` and `mass_lower = 0`), and returns
`max(0, 1*1) = 1`; yet `get_delta_for_epsilon(0) = 1 <= 1`, so `0` is a
feasible non-negative epsilon and the returned `1` is not the smallest
one. -/
theorem C4_counterexample :
    get_epsilon_for_delta (from_privacy_parameters 1 1 1) 1 = some 1 ∧
    get_delta_for_epsilon (from_privacy_parameters 1 1 1) 0 ≤ 1 ∧
    ¬ ((1 : ℝ) ≤ 0) := by
  have hk1 : ⌈(1:ℝ) / 1⌉ = 1 := by norm_num
  have hk2 : ⌈-(1:ℝ) / 1⌉ = -1 := by
    rw [show -(1:ℝ) / 1 = ((-1 : ℤ) : ℝ) by norm_num]
    exact Int.ceil_intCast _
  have hmass : ∀ k, (from_privacy_parameters 1 1 1).mass k = 0 := by
    intro k
    show (if k = ⌈-(1:ℝ) / 1⌉ then ((1:ℝ) - 1) / (1 + Real.exp 1)
      else if k = ⌈(1:ℝ) / 1⌉ then ((1:ℝ) - 1) / (1 + Real.exp (-1)) else 0) = 0
    split_ifs <;> norm_num
  have hkeys : (from_privacy_parameters 1 1 1).keys = {1, -1} := by
    show ({⌈(1:ℝ) / 1⌉, ⌈-(1:ℝ) / 1⌉} : Finset ℤ) = {1, -1}
    rw [hk1, hk2]
  have hsort : Finset.sort (· ≤ ·) ({1, -1} : Finset ℤ) = [-1, 1] := by
    have hperm : List.Perm (Finset.sort (· ≤ ·) ({1, -1} : Finset ℤ)) [-1, 1] := by
      refine (Finset.sort_perm_toList _ _).trans ?_
      have h1 : (1 : ℤ) ∉ ({-1} : Finset ℤ) := by decide
      refine (Finset.toList_insert h1).trans ?_
      rw [Finset.toList_singleton]
      exact List.Perm.swap (-1 : ℤ) 1 []
    exact List.eq_of_perm_of_sorted hperm (Finset.sort_sorted _ _) (by decide)
  have hsorted : sorted_keys_desc (from_privacy_parameters 1 1 1) = [1, -1] := by
    unfold sorted_keys_desc
    rw [hkeys, hsort]
    rfl
  have hinf : (from_privacy_parameters 1 1 1).infinity_mass = 1 := rfl
  have hIv : (from_privacy_parameters 1 1 1).value_discretization_interval = 1 := rfl
  refine ⟨?_, ?_, by norm_num⟩
  · unfold get_epsilon_for_delta
    rw [hinf, hIv, hsorted, if_neg (lt_irrefl (1:ℝ))]
    rw [eps_loop]
    rw [if_neg (by rintro ⟨h, -⟩; exact lt_irrefl (1:ℝ) h)]
    rw [if_pos ⟨by rw [hmass 1]; norm_num, by rw [hmass 1]; ring⟩]
    rw [show (((1:ℤ) : ℝ)) * 1 = 1 by norm_num, max_eq_right zero_le_one]
  · unfold get_delta_for_epsilon
    rw [hinf, hkeys]
    have hz : ∀ i ∈ ({1, -1} : Finset ℤ),
        (if (0:ℝ) < (i : ℝ) *
              (from_privacy_parameters 1 1 1).value_discretization_interval ∧
            0 < (from_privacy_parameters 1 1 1).mass i then
          (1 - Real.exp (0 - (i : ℝ) *
              (from_privacy_parameters 1 1 1).value_discretization_interval)) *
            (from_privacy_parameters 1 1 1).mass i
        else 0) = 0 := by
      intro i _
      rw [if_neg]
      rintro ⟨-, hm⟩
      rw [hmass i] at hm
      exact lt_irrefl 0 hm
    rw [Finset.sum_eq_zero hz]
    norm_num

/-- C4 — amended claim.  The unrestricted claim fails on code-produced PLDs
with zero-mass buckets (see the counterexample).  For every PLD satisfying
the data-model storage invariant (stored masses strictly positive, positive
interval) and every `delta`: `get_epsilon_for_delta` returns `+inf` exactly
when `infinity_mass > delta` (and then no finite epsilon attains the
target); every finite return value is the smallest non-negative epsilon with
`get_delta_for_epsilon(ε) ≤ delta`.  The early-termination `break` and the
`mass_lower == 0` special case are part of the embedded loop, so under the
invariant they never change the returned value relative to this
definition. -/
theorem C4_epsilon_for_delta (pld : PLD) (delta : ℝ)
    (hpos : ∀ i ∈ pld.keys, 0 < pld.mass i)
    (hI : 0 < pld.value_discretization_interval) :
    (get_epsilon_for_delta pld delta = none ↔ delta < pld.infinity_mass) ∧
    (delta < pld.infinity_mass → ∀ ε, delta < get_delta_for_epsilon pld ε) ∧
    (∀ R, get_epsilon_for_delta pld delta = some R →
      0 ≤ R ∧ get_delta_for_epsilon pld R ≤ delta ∧
      ∀ ε, 0 ≤ ε → get_delta_for_epsilon pld ε ≤ delta → R ≤ ε) := by
  have hmem : ∀ i ∈ sorted_keys_desc pld, 0 < pld.mass i := fun i hi =>
    hpos i ((sorted_keys_desc_mem pld i).mp hi)
  refine ⟨?_, ?_, ?_⟩
  · unfold get_epsilon_for_delta
    by_cases hd : delta < pld.infinity_mass
    · rw [if_pos hd]
      simp [hd]
    · rw [if_neg hd]
      obtain ⟨R, hR, _⟩ := eps_loop_correct delta pld.value_discretization_interval hI
        pld.mass (sorted_keys_desc pld) pld.infinity_mass 0 hmem
        (sorted_keys_desc_pairwise pld) (le_refl 0) (fun _ => not_lt.mp hd)
      rw [hR]
      simp [hd]
  · intro hd ε
    unfold get_delta_for_epsilon
    have hsum : 0 ≤ ∑ i ∈ pld.keys,
        if ε < (i : ℝ) * pld.value_discretization_interval ∧ 0 < pld.mass i then
          (1 - Real.exp (ε - (i : ℝ) * pld.value_discretization_interval)) * pld.mass i
        else 0 := by
      refine Finset.sum_nonneg fun i _ => ?_
      split
      · rename_i hcond
        refine mul_nonneg ?_ hcond.2.le
        have : Real.exp (ε - (i : ℝ) * pld.value_discretization_interval) ≤ 1 :=
          Real.exp_le_one_iff.mpr (by linarith [hcond.1])
        linarith
      · exact le_refl 0
    linarith
  · intro R hR
    unfold get_epsilon_for_delta at hR
    by_cases hd : delta < pld.infinity_mass
    · rw [if_pos hd] at hR
      cases hR
    · rw [if_neg hd] at hR
      obtain ⟨R', hR', hR0, hGR, hmin⟩ := eps_loop_correct delta
        pld.value_discretization_interval hI pld.mass (sorted_keys_desc pld)
        pld.infinity_mass 0 hmem (sorted_keys_desc_pairwise pld) (le_refl 0)
        (fun _ => not_lt.mp hd)
      rw [hR'] at hR
      injection hR with he
      subst he
      refine ⟨hR0, ?_, ?_⟩
      · rw [delta_eq_loop pld hpos]
        exact hGR
      · intro ε hε hfe
        by_contra hlt
        push_neg at hlt
        have hgt := hmin ε hε hlt
        rw [← delta_eq_loop pld hpos] at hgt
        linarith

/-- Witness for C4 at the one-bucket PLD `pld_example` and `delta = 1/2`. -/
theorem C4_epsilon_for_delta_witness :
    (∀ i ∈ pld_example.keys, 0 < pld_example.mass i) ∧
    ((0:ℝ) < pld_example.value_discretization_interval) ∧
    ((get_epsilon_for_delta pld_example (1/2) = none ↔
        (1:ℝ)/2 < pld_example.infinity_mass) ∧
      ((1:ℝ)/2 < pld_example.infinity_mass →
        ∀ ε, (1:ℝ)/2 < get_delta_for_epsilon pld_example ε) ∧
      (∀ R, get_epsilon_for_delta pld_example (1/2) = some R →
        0 ≤ R ∧ get_delta_for_epsilon pld_example R ≤ 1/2 ∧
        ∀ ε, 0 ≤ ε → get_delta_for_epsilon pld_example ε ≤ 1/2 → R ≤ ε)) := by
  have hpos : ∀ i ∈ pld_example.keys, 0 < pld_example.mass i := by
    intro i hi
    simp only [pld_example, Finset.mem_singleton] at hi
    simp only [pld_example]
    rw [if_pos hi]
    norm_num
  have hI : (0:ℝ) < pld_example.value_discretization_interval := by
    simp only [pld_example]
    norm_num
  exact ⟨hpos, hI, C4_epsilon_for_delta pld_example (1/2) hpos hI⟩

end DPAccounting
